import Mathlib

/-!
Verification of the CNF-based Wumpus World agent (`agents.py`, `wumpus_world.py`).

The development embeds the data model and the operations of `CNFAgent`:
cells, the pit/wumpus variable encoding, the growing CNF knowledge base,
the incremental SAT solver (modelled by propositional satisfiability over
integer literals), percept ingestion, the deduction passes, risk estimation,
the two BFS path planners, and the `choose_action` decision procedure.
-/

/-- A grid cell `(row, col)`, exactly the Python coordinate pairs. -/
abbrev Cell := Nat × Nat

/-- Manhattan distance between two cells (`manhattan_distance` in `agents.py`). -/
def manhattan (a b : Cell) : Nat :=
  (max a.1 b.1 - min a.1 b.1) + (max a.2 b.2 - min a.2 b.2)

/-- A cell lies inside the `n × n` grid. -/
def inGrid (n : Nat) (c : Cell) : Prop := c.1 < n ∧ c.2 < n

instance (n : Nat) (c : Cell) : Decidable (inGrid n c) := by
  unfold inGrid; infer_instance

/-! ### CNF semantics

Clauses are lists of non-zero integer literals, as handed to Glucose3.
An assignment maps variable indices (positive naturals) to booleans.
-/

/-- A clause: disjunction of signed integer literals. -/
abbrev Clause := List Int

/-- A CNF formula: conjunction of clauses. -/
abbrev Cnf := List Clause

/-- Truth of one literal under an assignment of the variables. -/
def evalLit (a : Nat → Bool) (l : Int) : Bool :=
  if 0 < l then a l.natAbs else !(a l.natAbs)

/-- Truth of a clause: some literal holds. -/
def evalClause (a : Nat → Bool) (c : Clause) : Bool :=
  c.any (evalLit a)

/-- Truth of a CNF: every clause holds. -/
def evalCnf (a : Nat → Bool) (f : Cnf) : Bool :=
  f.all (evalClause a)

/-- Satisfiability of a CNF, the notion the Glucose3 oracle decides. -/
def Satisfiable (f : Cnf) : Prop := ∃ a : Nat → Bool, evalCnf a f = true

/-- Point update of an assignment. -/
def updAssign (a : Nat → Bool) (v : Nat) (b : Bool) : Nat → Bool :=
  fun w => if w = v then b else a w

/-- Brute-force search: try all valuations of the variables in `vs`,
keeping `a` outside `vs`. -/
def satOn (f : Cnf) : List Nat → (Nat → Bool) → Bool
  | [], a => evalCnf a f
  | v :: vs, a => satOn f vs (updAssign a v true) || satOn f vs (updAssign a v false)

/-- The variables occurring in a CNF. -/
def varsOf (f : Cnf) : List Nat :=
  (f.flatten.map Int.natAbs).dedup

theorem satOn_eq_true_iff (f : Cnf) :
    ∀ (vs : List Nat) (a : Nat → Bool),
      satOn f vs a = true ↔
        ∃ a' : Nat → Bool, (∀ v, v ∉ vs → a' v = a v) ∧ evalCnf a' f = true := by
  intro vs
  induction vs with
  | nil =>
    intro a
    constructor
    · intro h; exact ⟨a, fun _ _ => rfl, h⟩
    · rintro ⟨a', ha', hsat⟩
      have : a' = a := funext fun v => ha' v (List.not_mem_nil v)
      simpa [satOn, this] using hsat
  | cons v vs ih =>
    intro a
    simp only [satOn, Bool.or_eq_true]
    constructor
    · rintro (h | h)
      · obtain ⟨a', ha', hsat⟩ := (ih _).1 h
        refine ⟨a', ?_, hsat⟩
        intro w hw
        have hwv : w ≠ v := fun hh => hw (hh ▸ List.mem_cons_self v vs)
        have hwvs : w ∉ vs := fun hh => hw (List.mem_cons_of_mem _ hh)
        simpa [updAssign, hwv] using ha' w hwvs
      · obtain ⟨a', ha', hsat⟩ := (ih _).1 h
        refine ⟨a', ?_, hsat⟩
        intro w hw
        have hwv : w ≠ v := fun hh => hw (hh ▸ List.mem_cons_self v vs)
        have hwvs : w ∉ vs := fun hh => hw (List.mem_cons_of_mem _ hh)
        simpa [updAssign, hwv] using ha' w hwvs
    · rintro ⟨a', ha', hsat⟩
      have key : ∀ b : Bool, a' v = b → satOn f vs (updAssign a v b) = true := by
        intro b hb
        refine (ih _).2 ⟨a', ?_, hsat⟩
        intro w hw
        show a' w = if w = v then b else a w
        by_cases hwv : w = v
        · rw [if_pos hwv, hwv, hb]
        · rw [if_neg hwv]
          refine ha' w ?_
          intro hh
          rcases List.mem_cons.1 hh with hh | hh
          · exact hwv hh
          · exact hw hh
      rcases Bool.eq_false_or_eq_true (a' v) with hv | hv
      · exact Or.inl (key true hv)
      · exact Or.inr (key false hv)

theorem evalLit_congr {a a' : Nat → Bool} {l : Int}
    (h : a l.natAbs = a' l.natAbs) : evalLit a l = evalLit a' l := by
  unfold evalLit
  split <;> simp [h]

theorem evalClause_congr {a a' : Nat → Bool} {c : Clause}
    (h : ∀ l ∈ c, a l.natAbs = a' l.natAbs) : evalClause a c = evalClause a' c := by
  induction c with
  | nil => rfl
  | cons l c ih =>
    have h1 := h l (List.mem_cons_self l c)
    have h2 : ∀ l' ∈ c, a l'.natAbs = a' l'.natAbs :=
      fun l' hl' => h l' (List.mem_cons_of_mem _ hl')
    simp only [evalClause, List.any_cons] at *
    rw [evalLit_congr h1, ih h2]

theorem evalCnf_congr {a a' : Nat → Bool} {f : Cnf}
    (h : ∀ v ∈ varsOf f, a v = a' v) : evalCnf a f = evalCnf a' f := by
  have hmem : ∀ c ∈ f, ∀ l ∈ c, a l.natAbs = a' l.natAbs := by
    intro c hc l hl
    apply h
    unfold varsOf
    rw [List.mem_dedup]
    exact List.mem_map_of_mem Int.natAbs (List.mem_flatten.2 ⟨c, hc, hl⟩)
  induction f with
  | nil => rfl
  | cons c f ih =>
    have h1 := hmem c (List.mem_cons_self c f)
    simp only [evalCnf, List.all_cons] at *
    rw [evalClause_congr h1, ih]
    · intro v hv
      apply h
      unfold varsOf at *
      rw [List.mem_dedup] at *
      rcases List.mem_map.1 hv with ⟨l, hl, rfl⟩
      rcases List.mem_flatten.1 hl with ⟨c', hc', hl'⟩
      exact List.mem_map_of_mem Int.natAbs
        (List.mem_flatten.2 ⟨c', List.mem_cons_of_mem _ hc', hl'⟩)
    · intro c' hc' l hl
      exact hmem c' (List.mem_cons_of_mem _ hc') l hl

/-- The brute-force search over the variables of `f` decides satisfiability. -/
theorem satOn_varsOf_iff (f : Cnf) :
    satOn f (varsOf f) (fun _ => false) = true ↔ Satisfiable f := by
  rw [satOn_eq_true_iff]
  constructor
  · rintro ⟨a', _, hsat⟩; exact ⟨a', hsat⟩
  · rintro ⟨a, hsat⟩
    refine ⟨fun v => if v ∈ varsOf f then a v else false, fun v hv => by simp [hv], ?_⟩
    have hcongr : evalCnf (fun v => if v ∈ varsOf f then a v else false) f = evalCnf a f :=
      evalCnf_congr (fun v hv => by simp [hv])
    rw [hcongr]
    exact hsat

/-- The SAT oracle: `solver.solve(assumptions=asms)` on clause set `f`.
Assumptions are modelled as additional unit clauses. -/
def solve (f : Cnf) (asms : List Int) : Bool :=
  let g := f ++ asms.map (fun l => [l])
  satOn g (varsOf g) (fun _ => false)

theorem solve_eq_true_iff (f : Cnf) (asms : List Int) :
    solve f asms = true ↔ Satisfiable (f ++ asms.map (fun l => [l])) :=
  satOn_varsOf_iff _

theorem solve_eq_false_iff (f : Cnf) (asms : List Int) :
    solve f asms = false ↔ ¬ Satisfiable (f ++ asms.map (fun l => [l])) := by
  rw [← solve_eq_true_iff]
  cases h : solve f asms <;> simp [h]

/-- Any model of a superset (by membership) of clauses models the subset. -/
theorem evalCnf_of_subset {a : Nat → Bool} {f g : Cnf}
    (hsub : ∀ c ∈ f, c ∈ g) (h : evalCnf a g = true) : evalCnf a f = true := by
  unfold evalCnf at *
  rw [List.all_eq_true] at *
  exact fun c hc => h c (hsub c hc)

theorem evalCnf_append {a : Nat → Bool} {f g : Cnf} :
    evalCnf a (f ++ g) = (evalCnf a f && evalCnf a g) := by
  unfold evalCnf
  exact List.all_append

/-- Satisfiability is antitone in the clause set. -/
theorem Satisfiable.mono {f g : Cnf} (hsub : ∀ c ∈ f, c ∈ g) :
    Satisfiable g → Satisfiable f := by
  rintro ⟨a, ha⟩
  exact ⟨a, evalCnf_of_subset hsub ha⟩

/-! ### The world (`wumpus_world.py`)

Static grid data. The generator places pits, exactly one Wumpus, and gold;
`get_percepts` reports breeze/stench iff a pit/the Wumpus is adjacent, and
glitter iff gold is at the cell itself.
-/

/-- Static world data: grid size and per-cell hazard/gold flags. -/
structure WWorld where
  size : Nat
  pits : Cell → Bool
  wumpus : Cell → Bool
  gold : Cell → Bool

/-- `get_neighbors` / `get_adjacent_positions`: the in-bounds orthogonal
neighbors, in the order up, down, left, right. -/
def get_neighbors (n : Nat) (pos : Cell) : List Cell :=
  let x := pos.1
  let y := pos.2
  (if 0 < x then [(x - 1, y)] else []) ++
  (if x < n - 1 then [(x + 1, y)] else []) ++
  (if 0 < y then [(x, y - 1)] else []) ++
  (if y < n - 1 then [(x, y + 1)] else [])

/-- Breeze percept at a cell: some adjacent cell holds a pit. -/
def breezeAt (w : WWorld) (pos : Cell) : Bool :=
  (get_neighbors w.size pos).any w.pits

/-- Stench percept at a cell: some adjacent cell holds the Wumpus. -/
def stenchAt (w : WWorld) (pos : Cell) : Bool :=
  (get_neighbors w.size pos).any w.wumpus

/-- Glitter percept at a cell: gold is at the cell itself. -/
def glitterAt (w : WWorld) (pos : Cell) : Bool :=
  w.gold pos

/-- A generated world: exactly one Wumpus among the in-grid cells
(`_generate_world` picks a single `wumpus_pos`). -/
def WFWorld (w : WWorld) : Prop :=
  ∃ wc : Cell, inGrid w.size wc ∧ w.wumpus wc = true ∧
    ∀ c : Cell, inGrid w.size c → w.wumpus c = true → c = wc

/-! ### Agent state (`CNFAgent`)

The mutable fields of the Python object. `cnf` is the permanent clause
list; `solverClauses` is the clause set held by the incremental Glucose3
instance; the two are mutated separately at every add site, mirroring the
paired `self.cnf.append` / `self.solver.add_clause` statements.
`agentPos` stands for `world.agent_pos`.
-/

structure AgentState where
  worldSize : Nat
  visited : List Cell
  safeMap : List Cell
  cnf : Cnf
  solverClauses : Cnf
  hasGold : Bool
  goal : Option Cell
  start : Cell
  currentPath : List Cell
  currentTarget : Option Cell
  agentPos : Cell

/-- `pit_var`: pit variable of a cell, in `[1, N²]`. -/
def pit_var (n : Nat) (c : Cell) : Int :=
  ((c.1 * n + c.2 + 1 : Nat) : Int)

/-- `wumpus_var`: Wumpus variable of a cell, in `[N²+1, 2N²]`. -/
def wumpus_var (n : Nat) (c : Cell) : Int :=
  ((n * n + (c.1 * n + c.2 + 1) : Nat) : Int)

/-- Python `set.add`: insert if not yet present. -/
def insertCell (c : Cell) (l : List Cell) : List Cell :=
  if c ∈ l then l else l ++ [c]

/-- `self.cnf.append(clause)`. -/
def appendCnf (s : AgentState) (cl : Clause) : AgentState :=
  { s with cnf := s.cnf ++ [cl] }

/-- `self.solver.add_clause(clause)`. -/
def appendSolver (s : AgentState) (cl : Clause) : AgentState :=
  { s with solverClauses := s.solverClauses ++ [cl] }

/-- `is_cell_safe`: both the pit and the Wumpus assumption are
unsatisfiable against the solver's clauses. -/
def is_cell_safe (s : AgentState) (c : Cell) : Bool :=
  !(solve s.solverClauses [pit_var s.worldSize c]) &&
  !(solve s.solverClauses [wumpus_var s.worldSize c])

/-- Classification outcome of `infer_hazards` for one hazard kind:
`certain` is the Python string `H!`/`W!`, `absent` is `NoH`/`NoW`,
`unknown` is `?`. -/
inductive Status where
  | certain
  | absent
  | unknown
deriving DecidableEq

/-- One hazard column of `infer_hazards`: certain when the negated
assumption is unsatisfiable, absent when the positive one is. -/
def hazStatus (f : Cnf) (v : Int) : Status :=
  if !(solve f [-v]) then .certain
  else if !(solve f [v]) then .absent
  else .unknown

/-- `infer_hazards`: pit status and Wumpus status of a cell. -/
def infer_hazards (s : AgentState) (c : Cell) : Status × Status :=
  (hazStatus s.solverClauses (pit_var s.worldSize c),
   hazStatus s.solverClauses (wumpus_var s.worldSize c))

/-- All grid cells in row-major order, as produced by the Python
double loops over `range(world_size)`. -/
def allCells (n : Nat) : List Cell :=
  ((List.range n).map (fun i => (List.range n).map (fun j => (i, j)))).flatten

/-- All ordered pairs `(l[i], l[j])` with `i < j`, in the order of the
Python double loop. -/
def pairsAfter {α : Type} : List α → List (α × α)
  | [] => []
  | x :: xs => xs.map (fun y => (x, y)) ++ pairsAfter xs

/-- The clauses added by `add_exactly_one_wumpus_constraint`: the
N²-literal at-least-one clause followed by the pairwise exclusions. -/
def exactlyOneClauses (n : Nat) : Cnf :=
  let wvars := (allCells n).map (wumpus_var n)
  wvars :: (pairsAfter wvars).map (fun p => [-p.1, -p.2])

/-- `add_exactly_one_wumpus_constraint`: append each clause to the
permanent base and to the solver. -/
def add_exactly_one_wumpus_constraint (s : AgentState) : AgentState :=
  (exactlyOneClauses s.worldSize).foldl (fun acc cl => appendSolver (appendCnf acc cl) cl) s

/-- Body of the `infer_pit_by_exclusion` cell loop. -/
def exclusionStep (w : WWorld) (s : AgentState) (cell : Cell) : AgentState :=
  if cell ∈ s.visited ∨ is_cell_safe s cell = false then s
  else
    let nbs := get_neighbors w.size cell
    let breeze_nbs := nbs.filter (fun nb => decide (nb ∈ s.visited) && breezeAt w nb)
    let unvis := nbs.filter (fun nb => !(decide (nb ∈ s.visited)))
    if 3 ≤ breeze_nbs.length ∧ unvis.length = 1 then
      let cl : Clause := [pit_var s.worldSize unvis.headI]
      appendSolver (appendCnf s cl) cl
    else s

/-- `infer_pit_by_exclusion`: scan all cells in row-major order. -/
def infer_pit_by_exclusion (w : WWorld) (s : AgentState) : AgentState :=
  (allCells s.worldSize).foldl (exclusionStep w) s

/-- Neighbor-loop body of `update_cnf_for_cell`: one pit clause and one
Wumpus clause per neighbor, each appended to the base and the solver. -/
def updateStep (w : WWorld) (nbs : List Cell) (pos : Cell) (acc : AgentState) (nb : Cell) :
    AgentState :=
  let accP :=
    if breezeAt w pos = false then
      let cl : Clause := [-(pit_var acc.worldSize nb)]
      appendSolver (appendCnf acc cl) cl
    else
      let cl : Clause := nbs.map (fun m => pit_var acc.worldSize m)
      appendSolver (appendCnf acc cl) cl
  if stenchAt w pos = false then
    let cl : Clause := [-(wumpus_var accP.worldSize nb)]
    appendSolver (appendCnf accP cl) cl
  else
    let cl : Clause := nbs.map (fun m => wumpus_var accP.worldSize m)
    appendSolver (appendCnf accP cl) cl

/-- `update_cnf_for_cell`: mark visited, translate the percept into
clauses for every neighbor, raise the gold flag on glitter. -/
def update_cnf_for_cell (w : WWorld) (s : AgentState) (pos : Cell) : AgentState :=
  let s1 := { s with visited := insertCell pos s.visited }
  let nbs := get_neighbors w.size pos
  let s2 := nbs.foldl (updateStep w nbs pos) s1
  if glitterAt w pos then { s2 with hasGold := true, goal := some s2.start } else s2

/-- Duplicate-suppressed add used by the two deduction passes:
`if clause not in self.cnf: append to both`. -/
def dedupAdd (s : AgentState) (cl : Clause) : AgentState :=
  if cl ∈ s.cnf then s else appendSolver (appendCnf s cl) cl

/-- Body of the `deduce_pit_from_breeze_constraint` visited-cell loop. -/
def deducePitStep (w : WWorld) (s : AgentState) (cell : Cell) : AgentState :=
  if breezeAt w cell = false then s
  else
    let nbs := get_neighbors w.size cell
    let known_safe := nbs.filter (fun nb => decide (nb ∈ s.visited))
    let unknown := nbs.filter (fun nb => !(decide (nb ∈ s.visited)))
    if unknown.length = 1 ∧ known_safe.length = nbs.length - 1 then
      dedupAdd s [pit_var s.worldSize unknown.headI]
    else
      let possible := nbs.filter (fun nb => solve s.solverClauses [pit_var s.worldSize nb])
      if possible.length = 1 then dedupAdd s [pit_var s.worldSize possible.headI]
      else s

/-- `deduce_pit_from_breeze_constraint`: run the step on every visited cell. -/
def deduce_pit_from_breeze_constraint (w : WWorld) (s : AgentState) : AgentState :=
  s.visited.foldl (deducePitStep w) s

/-- Body of the `deduce_wumpus_from_stench_constraint` visited-cell loop. -/
def deduceWumpusStep (w : WWorld) (s : AgentState) (cell : Cell) : AgentState :=
  if stenchAt w cell = false then s
  else
    let nbs := get_neighbors w.size cell
    let known_safe := nbs.filter (fun nb => decide (nb ∈ s.visited))
    let unknown := nbs.filter (fun nb => !(decide (nb ∈ s.visited)))
    if unknown.length = 1 ∧ known_safe.length = nbs.length - 1 then
      dedupAdd s [wumpus_var s.worldSize unknown.headI]
    else
      let possible := nbs.filter (fun nb => solve s.solverClauses [wumpus_var s.worldSize nb])
      if possible.length = 1 then dedupAdd s [wumpus_var s.worldSize possible.headI]
      else s

/-- `deduce_wumpus_from_stench_constraint`: run the step on every visited cell. -/
def deduce_wumpus_from_stench_constraint (w : WWorld) (s : AgentState) : AgentState :=
  s.visited.foldl (deduceWumpusStep w) s

/-- `CNFAgent.__init__`: fresh memory, then the exactly-one-Wumpus
constraint, then the exclusion pass. `start` is `(0,0)` because
`WumpusWorld` has no `start` attribute and `getattr` falls back to its
default; `agent_pos` starts at the bottom-left corner. -/
def initAgent (w : WWorld) : AgentState :=
  let s : AgentState := {
    worldSize := w.size, visited := [], safeMap := [], cnf := [], solverClauses := [],
    hasGold := false, goal := none, start := (0, 0), currentPath := [],
    currentTarget := none, agentPos := (w.size - 1, 0) }
  infer_pit_by_exclusion w (add_exactly_one_wumpus_constraint s)

/-! ### Risk estimation (`risk_estimate`)

Scores are rationals (the Python floats). The visited-neighbor percept
loop of the source adds `0` for a breeze and `0` for a stench and thus
contributes nothing; it is dropped here.
-/

/-- `risk_estimate`: classification terms, distance tie-breaker,
visited/safe/unresolved class term. -/
def risk_estimate (w : WWorld) (s : AgentState) (cell : Cell) : ℚ :=
  let st := infer_hazards s cell
  let r1 : ℚ := if st.1 = .certain then 1000 else if st.1 = .absent then -50 else 0
  let r2 : ℚ := if st.2 = .certain then 1000 else if st.2 = .absent then -50 else 0
  let r3 : ℚ := (manhattan cell s.agentPos : ℚ) / ((s.worldSize : ℚ) * 2) / 100
  let r4 : ℚ := if cell ∈ s.visited then 2
    else if is_cell_safe s cell then -5000 else -25
  r1 + r2 + r3 + r4

/-! ### Path planning

Python's `sorted` is a stable sort; stable insertion sort matches it.
The BFS queue is a FIFO deque; `came_from` is the predecessor map.
-/

/-- Stable insert for insertion sort by a natural-number key. -/
def insertByKey {α : Type} (key : α → Nat) (x : α) : List α → List α
  | [] => [x]
  | y :: ys => if key x ≤ key y then x :: y :: ys else y :: insertByKey key x ys

/-- Stable insertion sort by key, matching Python `sorted(..., key=...)`. -/
def sortByKey {α : Type} (key : α → Nat) : List α → List α
  | [] => []
  | x :: xs => insertByKey key x (sortByKey key xs)

/-- Association lookup in the `came_from` map (first matching key). -/
def lookupA : List (Cell × Option Cell) → Cell → Option (Option Cell)
  | [], _ => none
  | (k, v) :: rest, c => if k = c then some v else lookupA rest c

/-- Python dict assignment `came_from[c] = v`: overwrite or append. -/
def updateA : List (Cell × Option Cell) → Cell → Option Cell → List (Cell × Option Cell)
  | [], c, v => [(c, v)]
  | (k, v') :: rest, c, v =>
    if k = c then (c, v) :: rest else (k, v') :: updateA rest c v

/-- Path reconstruction: follow `came_from` links back from the target
(`while cur: path.append(cur); cur = came_from[cur]`, then reverse). -/
def reconstructPath (came : List (Cell × Option Cell)) : Nat → Cell → List Cell → Option (List Cell)
  | 0, _, _ => none
  | fuel + 1, cur, acc =>
    match lookupA came cur with
    | none => none
    | some none => some (cur :: acc)
    | some (some pr) => reconstructPath came fuel pr (cur :: acc)

/-- Neighbor processing of `find_safe_path`: skip cells already in
`came_from`; skip unvisited cells not classified Absent/Absent; enqueue
visited or provably safe cells. -/
def safeExpand (w : WWorld) (s : AgentState) (cur : Cell) :
    List Cell → List (Cell × Option Cell) → List Cell → List (Cell × Option Cell) × List Cell
  | [], came, queue => (came, queue)
  | nb :: rest, came, queue =>
    if (lookupA came nb).isSome then safeExpand w s cur rest came queue
    else if ((infer_hazards s nb).1 ≠ .absent ∨ (infer_hazards s nb).2 ≠ .absent) ∧
        nb ∉ s.visited then
      safeExpand w s cur rest came queue
    else if is_cell_safe s nb || decide (nb ∈ s.visited) then
      safeExpand w s cur rest (came ++ [(nb, some cur)]) (queue ++ [nb])
    else safeExpand w s cur rest came queue

/-- The `find_safe_path` BFS loop, with explicit fuel. -/
def bfsSafe (w : WWorld) (s : AgentState) (target : Cell) :
    Nat → List Cell → List (Cell × Option Cell) → Option (List Cell)
  | 0, _, _ => none
  | _ + 1, [], _ => none
  | fuel + 1, cur :: rest, came =>
    if cur = target then reconstructPath came (came.length + 1) cur []
    else
      let nbs := sortByKey (fun nb => manhattan nb target) (get_neighbors w.size cur)
      let cq := safeExpand w s cur nbs came rest
      bfsSafe w s target fuel cq.2 cq.1

/-- Fuel bound for the BFS loops; generous, and irrelevant to the claims
(running out yields the no-path signal). -/
def pathFuel (w : WWorld) : Nat := (w.size * w.size + 2) * 8

/-- `find_safe_path(start, target)`. -/
def find_safe_path (w : WWorld) (s : AgentState) (start target : Cell) : Option (List Cell) :=
  bfsSafe w s target (pathFuel w) [start] [(start, none)]

/-- Neighbor processing of `find_safe_path_to_risky`: the `came_from`
and hazard checks are only applied to non-target cells; the target is
always enqueueable (with dict overwrite of its predecessor). -/
def riskyExpand (w : WWorld) (s : AgentState) (cur target : Cell) :
    List Cell → List (Cell × Option Cell) → List Cell → List (Cell × Option Cell) × List Cell
  | [], came, queue => (came, queue)
  | nb :: rest, came, queue =>
    if nb ≠ target ∧ (lookupA came nb).isSome then
      riskyExpand w s cur target rest came queue
    else if nb ≠ target ∧
        ((infer_hazards s nb).1 ≠ .absent ∨ (infer_hazards s nb).2 ≠ .absent) then
      riskyExpand w s cur target rest came queue
    else if is_cell_safe s nb || decide (nb = target) then
      riskyExpand w s cur target rest (updateA came nb (some cur)) (queue ++ [nb])
    else riskyExpand w s cur target rest came queue

/-- The `find_safe_path_to_risky` BFS loop, with explicit fuel. -/
def bfsRisky (w : WWorld) (s : AgentState) (target : Cell) :
    Nat → List Cell → List (Cell × Option Cell) → Option (List Cell)
  | 0, _, _ => none
  | _ + 1, [], _ => none
  | fuel + 1, cur :: rest, came =>
    if cur = target then reconstructPath came (came.length + 1) cur []
    else
      let nbs := sortByKey (fun nb => manhattan nb target) (get_neighbors w.size cur)
      let cq := riskyExpand w s cur target nbs came rest
      bfsRisky w s target fuel cq.2 cq.1

/-- `find_safe_path_to_risky(start, target)`. -/
def find_safe_path_to_risky (w : WWorld) (s : AgentState) (start target : Cell) :
    Option (List Cell) :=
  bfsRisky w s target (pathFuel w) [start] [(start, none)]

/-- The candidate loop of `find_closest_safe_path`: first candidate for
which `find_safe_path` yields a path, with that path. -/
def firstCandidate (w : WWorld) (s : AgentState) (cur : Cell) :
    List Cell → Option (Cell × List Cell)
  | [] => none
  | cand :: rest =>
    match find_safe_path w s cur cand with
    | some p => some (cand, p)
    | none => firstCandidate w s cur rest

/-- `find_closest_safe_path(current_pos)`: scan the safe frontier
nearest-first; the no-candidate signal is `best_candidate == current_pos`. -/
def find_closest_safe_path (w : WWorld) (s : AgentState) (cur : Cell) :
    Option Cell × Option (List Cell) :=
  let ordered := sortByKey (fun nb => manhattan nb cur) s.safeMap
  match firstCandidate w s cur ordered with
  | none => (none, none)
  | some (cand, p) => if cand = cur then (none, none) else (some cand, some p)

/-! ### Decision making (`choose_action`) -/

/-- The four move directions returned by the agent. -/
inductive Direction where
  | up
  | down
  | left
  | right
deriving DecidableEq

/-- Stand-in for `random.choice(['up','down','left','right'])`; any of
the four directions. -/
def randDirection : Direction := .up

/-- `direction_from_to`: coordinate delta to direction; the random
fallback fires only when the two cells coincide. -/
def direction_from_to (current nb : Cell) : Direction :=
  if nb.1 < current.1 then .up
  else if current.1 < nb.1 then .down
  else if nb.2 < current.2 then .left
  else if current.2 < nb.2 then .right
  else randDirection

/-- The `move_type` values logged by `choose_action`. -/
inductive MoveType where
  | safeClosest
  | risky
  | adjacentFallback
  | ultimateRandom
deriving DecidableEq

/-- Step 2 of `choose_action`: rebuild the safe frontier from scratch
out of the unvisited Absent/Absent-and-safe neighbors of visited cells. -/
def rebuildSafeMap (w : WWorld) (s : AgentState) : List Cell :=
  s.visited.foldl (fun sm cell =>
    (get_neighbors w.size cell).foldl (fun sm' nb =>
      if (infer_hazards s nb).1 ≠ .absent ∨ (infer_hazards s nb).2 ≠ .absent then sm'
      else if nb ∉ s.visited ∧ is_cell_safe s nb = true then insertCell nb sm'
      else sm') sm) []

/-- Python `min(candidates, key=lambda t: t[1])`: first element of
minimal risk. -/
def minByRisk : List (Cell × ℚ) → Option (Cell × ℚ)
  | [] => none
  | x :: xs => some (xs.foldl (fun best y => if y.2 < best.2 then y else best) x)

/-- Python `min(nbs, key=lambda c: manhattan_distance(c, cur))`. -/
def minByDist (cur : Cell) : List Cell → Option Cell
  | [] => none
  | x :: xs =>
    some (xs.foldl (fun best y => if manhattan y cur < manhattan best cur then y else best) x)

/-- Step 6 of `choose_action`: repeatedly try the minimum-risk unvisited
candidate with `find_safe_path_to_risky`, discarding failures. -/
def riskyLoop (w : WWorld) (s : AgentState) (cur : Cell) :
    Nat → List (Cell × ℚ) → Option (Cell × List Cell)
  | 0, _ => none
  | _ + 1, [] => none
  | fuel + 1, cand :: cands =>
    match minByRisk (cand :: cands) with
    | none => none
    | some best =>
      match find_safe_path_to_risky w s cur best.1 with
      | some p =>
        if 1 < p.length then some (best.1, p)
        else riskyLoop w s cur fuel ((cand :: cands).erase best)
      | none => riskyLoop w s cur fuel ((cand :: cands).erase best)

/-- Steps 7 and 8 of `choose_action`: closest adjacent neighbor, else
the ultimate random fallback. -/
def chooseFallback (w : WWorld) (s4 : AgentState) (current_pos : Cell) :
    AgentState × Direction × MoveType :=
  let nbs := get_neighbors w.size current_pos
  match minByDist current_pos nbs with
  | some best =>
    ({ s4 with currentPath := [current_pos, best], currentTarget := some best },
     direction_from_to current_pos best, .adjacentFallback)
  | none => (s4, randDirection, .ultimateRandom)

/-- Step 6 wrapper: build the risky candidate list (unvisited cells in
row-major order with their risk scores) and run the loop. -/
def chooseRiskyPhase (w : WWorld) (s4 : AgentState) (current_pos : Cell) :
    AgentState × Direction × MoveType :=
  let cands := ((allCells s4.worldSize).filter (fun c => !(decide (c ∈ s4.visited)))).map
    (fun c => (c, risk_estimate w s4 c))
  match riskyLoop w s4 current_pos (cands.length + 1) cands with
  | some (tgt, p) =>
    match p with
    | _ :: next :: _ =>
      ({ s4 with currentPath := p, currentTarget := some tgt },
       direction_from_to current_pos next, .risky)
    | _ => chooseFallback w s4 current_pos
  | none => chooseFallback w s4 current_pos

/-- Steps 1 and 2 of `choose_action`: percept ingestion, the two
deduction passes, and the safe-frontier rebuild. -/
def afterUpdate (w : WWorld) (s : AgentState) : AgentState :=
  let s1 := update_cnf_for_cell w s s.agentPos
  let s2 := deduce_pit_from_breeze_constraint w s1
  let s3 := deduce_wumpus_from_stench_constraint w s2
  { s3 with safeMap := rebuildSafeMap w s3 }

/-- `choose_action`: ingest the percept, run both deduction passes,
rebuild the safe frontier, then descend the priority ladder. -/
def choose_action (w : WWorld) (s : AgentState) : AgentState × Direction × MoveType :=
  let current_pos := s.agentPos
  let s4 := afterUpdate w s
  match find_closest_safe_path w s4 current_pos with
  | (some cand, some p) =>
    match p with
    | c0 :: next :: rest =>
      ({ s4 with currentPath := c0 :: next :: rest, currentTarget := some cand },
       direction_from_to current_pos next, .safeClosest)
    | _ => chooseRiskyPhase w s4 current_pos
  | _ => chooseRiskyPhase w s4 current_pos

/-- `get_new_position` in `cnf_game.py` composed with
`WumpusWorld.move_agent`: the delta is applied on integers and rejected
when it leaves the grid. -/
def applyMove (n : Nat) (pos : Cell) (d : Direction) : Cell :=
  let nx : Int × Int := match d with
    | .up => ((pos.1 : Int) - 1, (pos.2 : Int))
    | .down => ((pos.1 : Int) + 1, (pos.2 : Int))
    | .left => ((pos.1 : Int), (pos.2 : Int) - 1)
    | .right => ((pos.1 : Int), (pos.2 : Int) + 1)
  if 0 ≤ nx.1 ∧ nx.1 < (n : Int) ∧ 0 ≤ nx.2 ∧ nx.2 < (n : Int) then
    (nx.1.toNat, nx.2.toNat)
  else pos

/-- A cell holds neither hazard in the ground truth. -/
def hazardFree (w : WWorld) (c : Cell) : Prop :=
  w.pits c = false ∧ w.wumpus c = false

instance (w : WWorld) (c : Cell) : Decidable (hazardFree w c) := by
  unfold hazardFree
  infer_instance

/-- Agent states reachable by constructing a `CNFAgent` on a world and
running `choose_action` turns with the returned moves applied by the
game loop, under the hypothesis that every cell the agent occupies is
hazard-free. -/
inductive Reachable (w : WWorld) : AgentState → Prop where
  | init :
      hazardFree w (w.size - 1, 0) →
      Reachable w (initAgent w)
  | step (s s' : AgentState) (d : Direction) (mt : MoveType) :
      Reachable w s →
      choose_action w s = (s', d, mt) →
      hazardFree w (applyMove w.size s'.agentPos d) →
      Reachable w { s' with agentPos := applyMove w.size s'.agentPos d }

/-! ### Variable encoding and the ground-truth assignment -/

theorem pit_var_pos (n : Nat) (c : Cell) : 0 < pit_var n c := by
  unfold pit_var
  exact_mod_cast Nat.succ_pos _

theorem wumpus_var_pos (n : Nat) (c : Cell) : 0 < wumpus_var n c := by
  unfold wumpus_var
  exact_mod_cast Nat.succ_pos _

theorem pit_var_natAbs (n : Nat) (c : Cell) :
    (pit_var n c).natAbs = c.1 * n + c.2 + 1 := by
  unfold pit_var
  exact Int.natAbs_ofNat _

theorem wumpus_var_natAbs (n : Nat) (c : Cell) :
    (wumpus_var n c).natAbs = n * n + (c.1 * n + c.2 + 1) := by
  unfold wumpus_var
  exact Int.natAbs_ofNat _

/-- Inverse of the row-major cell encoding. -/
def decodeCell (n k : Nat) : Cell := (k / n, k % n)

theorem decode_encode {n : Nat} {c : Cell} (h : inGrid n c) :
    decodeCell n (c.1 * n + c.2) = c := by
  obtain ⟨h1, h2⟩ := h
  have hn : 0 < n := Nat.lt_of_le_of_lt (Nat.zero_le _) h1
  unfold decodeCell
  have hdiv : (c.1 * n + c.2) / n = c.1 := by
    rw [Nat.mul_comm, Nat.mul_add_div hn, Nat.div_eq_of_lt h2, Nat.add_zero]
  have hmod : (c.1 * n + c.2) % n = c.2 := by
    rw [Nat.mul_comm, Nat.mul_add_mod, Nat.mod_eq_of_lt h2]
  rw [hdiv, hmod]

theorem encode_lt {n : Nat} {c : Cell} (h : inGrid n c) :
    c.1 * n + c.2 + 1 ≤ n * n := by
  obtain ⟨h1, h2⟩ := h
  have hc1 : c.1 + 1 ≤ n := h1
  calc c.1 * n + c.2 + 1 ≤ c.1 * n + n := by omega
    _ = (c.1 + 1) * n := by ring
    _ ≤ n * n := Nat.mul_le_mul_right n hc1

/-- The assignment induced by the ground-truth grid: pit variables in
`[1, N²]`, Wumpus variables in `[N²+1, 2N²]`. -/
def truthAssign (w : WWorld) : Nat → Bool := fun v =>
  if 1 ≤ v ∧ v ≤ w.size * w.size then w.pits (decodeCell w.size (v - 1))
  else if v ≤ 2 * (w.size * w.size) then w.wumpus (decodeCell w.size (v - 1 - w.size * w.size))
  else false

theorem truthAssign_pit {w : WWorld} {c : Cell} (h : inGrid w.size c) :
    truthAssign w ((pit_var w.size c).natAbs) = w.pits c := by
  rw [pit_var_natAbs]
  unfold truthAssign
  rw [if_pos ⟨Nat.le_add_left 1 _, encode_lt h⟩]
  rw [Nat.add_sub_cancel, decode_encode h]

theorem truthAssign_wum {w : WWorld} {c : Cell} (h : inGrid w.size c) :
    truthAssign w ((wumpus_var w.size c).natAbs) = w.wumpus c := by
  rw [wumpus_var_natAbs]
  unfold truthAssign
  have henc := encode_lt h
  rw [if_neg (by omega)]
  rw [if_pos (by omega)]
  have hsub : w.size * w.size + (c.1 * w.size + c.2 + 1) - 1 - w.size * w.size
      = c.1 * w.size + c.2 := by omega
  rw [hsub, decode_encode h]

theorem evalLit_pos {a : Nat → Bool} {l : Int} (h : 0 < l) :
    evalLit a l = a l.natAbs := if_pos h

theorem evalLit_neg_of_pos {a : Nat → Bool} {l : Int} (h : 0 < l) :
    evalLit a (-l) = !(a l.natAbs) := by
  unfold evalLit
  rw [if_neg (by omega), Int.natAbs_neg]

/-- A model of the clause set that makes the assumption literal true is a
model of the assumption-extended set. -/
theorem sat_append_unit {f : Cnf} {l : Int} {a : Nat → Bool}
    (ha : evalCnf a f = true) (hl : evalLit a l = true) :
    Satisfiable (f ++ [[l]]) := by
  refine ⟨a, ?_⟩
  rw [evalCnf_append, ha]
  simp [evalCnf, evalClause, hl]

/-- Once `[-l]` is a clause, assuming `l` is unsatisfiable. -/
theorem unsat_pos_of_negUnit {f : Cnf} {l : Int} (hl : 0 < l) (hmem : [-l] ∈ f) :
    ¬ Satisfiable (f ++ [[l]]) := by
  rintro ⟨a, ha⟩
  rw [evalCnf_append, Bool.and_eq_true] at ha
  obtain ⟨hf, hunit⟩ := ha
  have h1 : evalClause a [-l] = true := by
    unfold evalCnf at hf
    rw [List.all_eq_true] at hf
    exact hf _ hmem
  have h2 : evalClause a [l] = true := by
    unfold evalCnf at hunit
    rw [List.all_eq_true] at hunit
    exact hunit _ (List.mem_singleton_self _)
  simp only [evalClause, List.any_cons, List.any_nil, Bool.or_false] at h1 h2
  rw [evalLit_neg_of_pos hl] at h1
  rw [evalLit_pos hl] at h2
  rw [h2] at h1
  exact Bool.false_ne_true h1

theorem hazStatus_eq_certain_iff (f : Cnf) (v : Int) :
    hazStatus f v = .certain ↔ solve f [-v] = false := by
  unfold hazStatus
  cases h1 : solve f [-v] <;> cases h2 : solve f [v] <;> simp

theorem hazStatus_eq_absent_iff (f : Cnf) (v : Int) :
    hazStatus f v = .absent ↔ (solve f [-v] = true ∧ solve f [v] = false) := by
  unfold hazStatus
  cases h1 : solve f [-v] <;> cases h2 : solve f [v] <;> simp

theorem hazStatus_eq_unknown_iff (f : Cnf) (v : Int) :
    hazStatus f v = .unknown ↔ (solve f [-v] = true ∧ solve f [v] = true) := by
  unfold hazStatus
  cases h1 : solve f [-v] <;> cases h2 : solve f [v] <;> simp

/-- Soundness of a `certain` verdict against any model of the clause set. -/
theorem certain_sound {f : Cnf} {v : Int} (hv : 0 < v)
    (hc : hazStatus f v = .certain) {a : Nat → Bool} (ha : evalCnf a f = true) :
    a v.natAbs = true := by
  rw [hazStatus_eq_certain_iff, solve_eq_false_iff] at hc
  by_contra hfalse
  have hfalse' : a v.natAbs = false := by
    cases h : a v.natAbs
    · rfl
    · exact absurd h hfalse
  refine hc ?_
  have : evalLit a (-v) = true := by
    rw [evalLit_neg_of_pos hv, hfalse']
    rfl
  simpa using sat_append_unit ha this

/-- Soundness of an `absent` verdict against any model of the clause set. -/
theorem absent_sound {f : Cnf} {v : Int} (hv : 0 < v)
    (hc : hazStatus f v = .absent) {a : Nat → Bool} (ha : evalCnf a f = true) :
    a v.natAbs = false := by
  rw [hazStatus_eq_absent_iff] at hc
  obtain ⟨-, hc⟩ := hc
  rw [solve_eq_false_iff] at hc
  by_contra htrue
  have htrue' : a v.natAbs = true := by
    cases h : a v.natAbs
    · exact absurd h htrue
    · rfl
  refine hc ?_
  have : evalLit a v = true := by rw [evalLit_pos hv]; exact htrue'
  simpa using sat_append_unit ha this

/-! ### Structural characterizations of the knowledge-base operations -/

theorem foldAppendBoth (l : Cnf) : ∀ s : AgentState,
    l.foldl (fun acc cl => appendSolver (appendCnf acc cl) cl) s =
      { s with cnf := s.cnf ++ l, solverClauses := s.solverClauses ++ l } := by
  induction l with
  | nil => intro s; simp
  | cons cl l ih =>
    intro s
    rw [List.foldl_cons, ih]
    simp [appendCnf, appendSolver]

theorem add_exactly_one_eq (s : AgentState) :
    add_exactly_one_wumpus_constraint s =
      { s with cnf := s.cnf ++ exactlyOneClauses s.worldSize,
               solverClauses := s.solverClauses ++ exactlyOneClauses s.worldSize } :=
  foldAppendBoth _ s

theorem exclusionStep_visited_nil (w : WWorld) (s : AgentState)
    (h : s.visited = []) (cell : Cell) : exclusionStep w s cell = s := by
  unfold exclusionStep
  split
  · rfl
  · simp [h]

theorem infer_pit_by_exclusion_visited_nil (w : WWorld) (s : AgentState)
    (h : s.visited = []) : infer_pit_by_exclusion w s = s := by
  unfold infer_pit_by_exclusion
  generalize allCells s.worldSize = l
  induction l with
  | nil => rfl
  | cons c l ih => rw [List.foldl_cons, exclusionStep_visited_nil w s h c, ih]

/-- `CNFAgent.__init__` in closed form: the only clauses present after
construction are the exactly-one-Wumpus constraint (with an empty visited
set the exclusion pass adds nothing). -/
theorem initAgent_eq (w : WWorld) : initAgent w =
    { worldSize := w.size, visited := [], safeMap := [],
      cnf := exactlyOneClauses w.size, solverClauses := exactlyOneClauses w.size,
      hasGold := false, goal := none, start := (0, 0), currentPath := [],
      currentTarget := none, agentPos := (w.size - 1, 0) } := by
  have h1 : initAgent w = infer_pit_by_exclusion w (add_exactly_one_wumpus_constraint
      { worldSize := w.size, visited := [], safeMap := [], cnf := [], solverClauses := [],
        hasGold := false, goal := none, start := (0, 0), currentPath := [],
        currentTarget := none, agentPos := (w.size - 1, 0) }) := rfl
  rw [h1, add_exactly_one_eq, infer_pit_by_exclusion_visited_nil _ _ rfl]
  simp

/-- The two clauses `update_cnf_for_cell` appends for one neighbor. -/
def updateCellClauses (w : WWorld) (n : Nat) (pos : Cell) (nbs : List Cell) (nb : Cell) : Cnf :=
  [if breezeAt w pos = false then [-(pit_var n nb)] else nbs.map (pit_var n),
   if stenchAt w pos = false then [-(wumpus_var n nb)] else nbs.map (wumpus_var n)]

theorem updateStep_eq (w : WWorld) (nbs : List Cell) (pos : Cell)
    (acc : AgentState) (nb : Cell) : updateStep w nbs pos acc nb =
      { acc with cnf := acc.cnf ++ updateCellClauses w acc.worldSize pos nbs nb,
                 solverClauses := acc.solverClauses ++ updateCellClauses w acc.worldSize pos nbs nb } := by
  unfold updateStep updateCellClauses appendCnf appendSolver
  by_cases hb : breezeAt w pos = false <;> by_cases hs : stenchAt w pos = false <;>
    simp [hb, hs]

/-- All clauses `update_cnf_for_cell(pos)` appends, in order. -/
def updateClauses (w : WWorld) (n : Nat) (pos : Cell) : Cnf :=
  (get_neighbors w.size pos).flatMap
    (updateCellClauses w n pos (get_neighbors w.size pos))

theorem updateFold_eq (w : WWorld) (pos : Cell) (nbsAll : List Cell) :
    ∀ (l : List Cell) (s0 : AgentState),
      l.foldl (updateStep w nbsAll pos) s0 =
        { s0 with cnf := s0.cnf ++ l.flatMap (updateCellClauses w s0.worldSize pos nbsAll),
                  solverClauses := s0.solverClauses ++
                    l.flatMap (updateCellClauses w s0.worldSize pos nbsAll) } := by
  intro l
  induction l with
  | nil => intro s0; simp
  | cons nb l ih =>
    intro s0
    rw [List.foldl_cons, updateStep_eq, ih]
    simp [List.append_assoc]

/-- `update_cnf_for_cell` in closed form. -/
theorem update_cnf_for_cell_eq (w : WWorld) (s : AgentState) (pos : Cell) :
    update_cnf_for_cell w s pos =
      if glitterAt w pos then
        { s with visited := insertCell pos s.visited,
                 cnf := s.cnf ++ updateClauses w s.worldSize pos,
                 solverClauses := s.solverClauses ++ updateClauses w s.worldSize pos,
                 hasGold := true, goal := some s.start }
      else
        { s with visited := insertCell pos s.visited,
                 cnf := s.cnf ++ updateClauses w s.worldSize pos,
                 solverClauses := s.solverClauses ++ updateClauses w s.worldSize pos } := by
  unfold update_cnf_for_cell updateClauses
  simp only [updateFold_eq]

/-- Appending one clause to base and solver is lock-step growth. -/
theorem appendBoth_growth (s : AgentState) (cl : Clause) :
    ∃ t : Cnf, appendSolver (appendCnf s cl) cl =
      { s with cnf := s.cnf ++ t, solverClauses := s.solverClauses ++ t } :=
  ⟨[cl], by simp [appendCnf, appendSolver]⟩

/-- `dedupAdd` only ever appends (possibly nothing) to base and solver
in lock-step. -/
theorem dedupAdd_growth (s : AgentState) (cl : Clause) :
    ∃ t : Cnf, dedupAdd s cl =
      { s with cnf := s.cnf ++ t, solverClauses := s.solverClauses ++ t } := by
  unfold dedupAdd appendCnf appendSolver
  by_cases h : cl ∈ s.cnf
  · exact ⟨[], by simp [h]⟩
  · exact ⟨[cl], by simp [h]⟩

theorem deducePitStep_growth (w : WWorld) (s : AgentState) (cell : Cell) :
    ∃ t : Cnf, deducePitStep w s cell =
      { s with cnf := s.cnf ++ t, solverClauses := s.solverClauses ++ t } := by
  simp only [deducePitStep]
  split
  · exact ⟨[], by simp⟩
  split
  · exact dedupAdd_growth _ _
  split
  · exact dedupAdd_growth _ _
  · exact ⟨[], by simp⟩

theorem deduceWumpusStep_growth (w : WWorld) (s : AgentState) (cell : Cell) :
    ∃ t : Cnf, deduceWumpusStep w s cell =
      { s with cnf := s.cnf ++ t, solverClauses := s.solverClauses ++ t } := by
  simp only [deduceWumpusStep]
  split
  · exact ⟨[], by simp⟩
  split
  · exact dedupAdd_growth _ _
  split
  · exact dedupAdd_growth _ _
  · exact ⟨[], by simp⟩

theorem exclusionStep_growth (w : WWorld) (s : AgentState) (cell : Cell) :
    ∃ t : Cnf, exclusionStep w s cell =
      { s with cnf := s.cnf ++ t, solverClauses := s.solverClauses ++ t } := by
  simp only [exclusionStep]
  split
  · exact ⟨[], by simp⟩
  split
  · exact appendBoth_growth _ _
  · exact ⟨[], by simp⟩

/-- Folding any step that appends to base and solver in lock-step again
appends in lock-step. -/
theorem foldl_growth {step : AgentState → Cell → AgentState}
    (hstep : ∀ s c, ∃ t : Cnf, step s c =
      { s with cnf := s.cnf ++ t, solverClauses := s.solverClauses ++ t }) :
    ∀ (l : List Cell) (s : AgentState), ∃ t : Cnf, l.foldl step s =
      { s with cnf := s.cnf ++ t, solverClauses := s.solverClauses ++ t } := by
  intro l
  induction l with
  | nil => intro s; exact ⟨[], by simp⟩
  | cons c l ih =>
    intro s
    obtain ⟨t2, h2⟩ := ih (step s c)
    obtain ⟨t1, h1⟩ := hstep s c
    refine ⟨t1 ++ t2, ?_⟩
    rw [List.foldl_cons, h2, h1]
    simp [List.append_assoc]

theorem deduce_pit_growth (w : WWorld) (s : AgentState) :
    ∃ t : Cnf, deduce_pit_from_breeze_constraint w s =
      { s with cnf := s.cnf ++ t, solverClauses := s.solverClauses ++ t } :=
  foldl_growth (deducePitStep_growth w) s.visited s

theorem deduce_wumpus_growth (w : WWorld) (s : AgentState) :
    ∃ t : Cnf, deduce_wumpus_from_stench_constraint w s =
      { s with cnf := s.cnf ++ t, solverClauses := s.solverClauses ++ t } :=
  foldl_growth (deduceWumpusStep_growth w) s.visited s

theorem infer_pit_by_exclusion_growth (w : WWorld) (s : AgentState) :
    ∃ t : Cnf, infer_pit_by_exclusion w s =
      { s with cnf := s.cnf ++ t, solverClauses := s.solverClauses ++ t } :=
  foldl_growth (exclusionStep_growth w) (allCells s.worldSize) s

/-! ### Geometry and percept lemmas -/

theorem mem_ite_singleton {c : Prop} [Decidable c] {x y : Cell} :
    y ∈ (if c then [x] else []) → c ∧ y = x := by
  split <;> simp_all

theorem neighbors_inGrid {n : Nat} {pos nb : Cell} (hpos : inGrid n pos)
    (h : nb ∈ get_neighbors n pos) : inGrid n nb := by
  obtain ⟨hx, hy⟩ := hpos
  unfold get_neighbors at h
  rcases List.mem_append.1 h with h | h
  · rcases List.mem_append.1 h with h | h
    · rcases List.mem_append.1 h with h | h
      · obtain ⟨hc, rfl⟩ := mem_ite_singleton h
        exact ⟨by omega, hy⟩
      · obtain ⟨hc, rfl⟩ := mem_ite_singleton h
        exact ⟨by omega, hy⟩
    · obtain ⟨hc, rfl⟩ := mem_ite_singleton h
      exact ⟨hx, by omega⟩
  · obtain ⟨hc, rfl⟩ := mem_ite_singleton h
    exact ⟨hx, by omega⟩

theorem breezeAt_eq_true_iff {w : WWorld} {pos : Cell} :
    breezeAt w pos = true ↔ ∃ nb ∈ get_neighbors w.size pos, w.pits nb = true := by
  unfold breezeAt
  rw [List.any_eq_true]

theorem stenchAt_eq_true_iff {w : WWorld} {pos : Cell} :
    stenchAt w pos = true ↔ ∃ nb ∈ get_neighbors w.size pos, w.wumpus nb = true := by
  unfold stenchAt
  rw [List.any_eq_true]

theorem pits_eq_false_of_no_breeze {w : WWorld} {pos nb : Cell}
    (h : breezeAt w pos = false) (hnb : nb ∈ get_neighbors w.size pos) :
    w.pits nb = false := by
  by_contra hne
  have ht : w.pits nb = true := by
    cases hp : w.pits nb
    · exact absurd hp hne
    · rfl
  have : breezeAt w pos = true := breezeAt_eq_true_iff.2 ⟨nb, hnb, ht⟩
  rw [h] at this
  exact Bool.false_ne_true this

theorem wumpus_eq_false_of_no_stench {w : WWorld} {pos nb : Cell}
    (h : stenchAt w pos = false) (hnb : nb ∈ get_neighbors w.size pos) :
    w.wumpus nb = false := by
  by_contra hne
  have ht : w.wumpus nb = true := by
    cases hp : w.wumpus nb
    · exact absurd hp hne
    · rfl
  have : stenchAt w pos = true := stenchAt_eq_true_iff.2 ⟨nb, hnb, ht⟩
  rw [h] at this
  exact Bool.false_ne_true this

theorem evalClause_negUnit {a : Nat → Bool} {l : Int} (hl : 0 < l) :
    evalClause a [-l] = !(a l.natAbs) := by
  simp [evalClause, evalLit_neg_of_pos hl]

theorem evalClause_posUnit {a : Nat → Bool} {l : Int} (hl : 0 < l) :
    evalClause a [l] = a l.natAbs := by
  simp [evalClause, evalLit_pos hl]

theorem evalClause_true_of_mem {a : Nat → Bool} {c : Clause} {l : Int}
    (hl : l ∈ c) (h : evalLit a l = true) : evalClause a c = true := by
  unfold evalClause
  rw [List.any_eq_true]
  exact ⟨l, hl, h⟩

/-- All percept-derived clauses of one `update_cnf_for_cell` call hold
in the ground truth. -/
theorem updateClauses_truth {w : WWorld} {pos : Cell} (hpos : inGrid w.size pos) :
    evalCnf (truthAssign w) (updateClauses w w.size pos) = true := by
  unfold updateClauses evalCnf
  rw [List.all_eq_true]
  intro cl hcl
  rcases List.mem_flatMap.1 hcl with ⟨nb, hnb, hcl⟩
  have hnbg : inGrid w.size nb := neighbors_inGrid hpos hnb
  unfold updateCellClauses at hcl
  rcases List.mem_cons.1 hcl with rfl | hcl
  · by_cases hb : breezeAt w pos = false
    · rw [if_pos hb, evalClause_negUnit (pit_var_pos _ _), truthAssign_pit hnbg,
        pits_eq_false_of_no_breeze hb hnb]
      rfl
    · have hb' : breezeAt w pos = true := by
        cases h : breezeAt w pos
        · exact absurd h hb
        · rfl
      obtain ⟨nbp, hnbp, hpit⟩ := breezeAt_eq_true_iff.1 hb'
      rw [if_neg hb]
      refine evalClause_true_of_mem (List.mem_map_of_mem _ hnbp) ?_
      rw [evalLit_pos (pit_var_pos _ _), truthAssign_pit (neighbors_inGrid hpos hnbp)]
      exact hpit
  · rcases List.mem_cons.1 hcl with rfl | hcl
    · by_cases hs : stenchAt w pos = false
      · rw [if_pos hs, evalClause_negUnit (wumpus_var_pos _ _), truthAssign_wum hnbg,
          wumpus_eq_false_of_no_stench hs hnb]
        rfl
      · have hs' : stenchAt w pos = true := by
          cases h : stenchAt w pos
          · exact absurd h hs
          · rfl
        obtain ⟨nbw, hnbw, hwum⟩ := stenchAt_eq_true_iff.1 hs'
        rw [if_neg hs]
        refine evalClause_true_of_mem (List.mem_map_of_mem _ hnbw) ?_
        rw [evalLit_pos (wumpus_var_pos _ _), truthAssign_wum (neighbors_inGrid hpos hnbw)]
        exact hwum
    · exact absurd hcl (List.not_mem_nil cl)

/-! ### Truth of the exactly-one-Wumpus constraint -/

theorem allCells_eq (n : Nat) : allCells n = (List.range n).product (List.range n) := by
  unfold allCells List.product
  rw [List.flatMap]

theorem mem_allCells {n : Nat} {c : Cell} : c ∈ allCells n ↔ inGrid n c := by
  obtain ⟨i, j⟩ := c
  rw [allCells_eq]
  show (i, j) ∈ (List.range n) ×ˢ (List.range n) ↔ _
  rw [List.mem_product]
  simp [inGrid, List.mem_range]

theorem allCells_nodup (n : Nat) : (allCells n).Nodup := by
  rw [allCells_eq]
  exact (List.nodup_range _).product (List.nodup_range _)

theorem wumpus_var_inj {n : Nat} {c1 c2 : Cell} (h1 : inGrid n c1) (h2 : inGrid n c2)
    (h : wumpus_var n c1 = wumpus_var n c2) : c1 = c2 := by
  have hn : (wumpus_var n c1).natAbs = (wumpus_var n c2).natAbs := by rw [h]
  rw [wumpus_var_natAbs, wumpus_var_natAbs] at hn
  have henc : c1.1 * n + c1.2 = c2.1 * n + c2.2 := by omega
  have := decode_encode h1
  rw [henc, decode_encode h2] at this
  exact this.symm

theorem pairsAfter_mem {α : Type} : ∀ {l : List α}, l.Nodup → ∀ {x y : α},
    (x, y) ∈ pairsAfter l → x ∈ l ∧ y ∈ l ∧ x ≠ y := by
  intro l
  induction l with
  | nil => intro _ x y h; simp [pairsAfter] at h
  | cons a as ih =>
    intro hnd x y h
    rw [pairsAfter] at h
    rcases List.mem_append.1 h with h | h
    · rcases List.mem_map.1 h with ⟨y', hy', heq⟩
      have hx : a = x := congrArg Prod.fst heq
      have hy : y' = y := congrArg Prod.snd heq
      subst hx
      subst hy
      have ha : a ∉ as := (List.nodup_cons.1 hnd).1
      exact ⟨List.mem_cons_self a as, List.mem_cons_of_mem _ hy',
        fun he => ha (he ▸ hy')⟩
    · have hrec := ih (List.nodup_cons.1 hnd).2 h
      exact ⟨List.mem_cons_of_mem _ hrec.1, List.mem_cons_of_mem _ hrec.2.1, hrec.2.2⟩

theorem exactlyOne_truth {w : WWorld} (hwf : WFWorld w) :
    evalCnf (truthAssign w) (exactlyOneClauses w.size) = true := by
  obtain ⟨wc, hwcg, hwct, huniq⟩ := hwf
  have hwnodup : ((allCells w.size).map (wumpus_var w.size)).Nodup := by
    refine (allCells_nodup w.size).map_on ?_
    intro c1 hc1 c2 hc2 heq
    exact wumpus_var_inj (mem_allCells.1 hc1) (mem_allCells.1 hc2) heq
  unfold exactlyOneClauses evalCnf
  rw [List.all_cons, Bool.and_eq_true]
  constructor
  · refine evalClause_true_of_mem (List.mem_map_of_mem _ (mem_allCells.2 hwcg)) ?_
    rw [evalLit_pos (wumpus_var_pos _ _), truthAssign_wum hwcg]
    exact hwct
  · rw [List.all_eq_true]
    intro cl hcl
    rcases List.mem_map.1 hcl with ⟨⟨v1, v2⟩, hp, rfl⟩
    obtain ⟨hv1, hv2, hne⟩ := pairsAfter_mem hwnodup hp
    rcases List.mem_map.1 hv1 with ⟨c1, hc1, rfl⟩
    rcases List.mem_map.1 hv2 with ⟨c2, hc2, rfl⟩
    have hc1g := mem_allCells.1 hc1
    have hc2g := mem_allCells.1 hc2
    have hcc : c1 ≠ c2 := fun he => hne (he ▸ rfl)
    have hone : w.wumpus c1 = false ∨ w.wumpus c2 = false := by
      by_contra hcon
      push_neg at hcon
      have ht1 : w.wumpus c1 = true := by
        cases h : w.wumpus c1
        · exact absurd h hcon.1
        · rfl
      have ht2 : w.wumpus c2 = true := by
        cases h : w.wumpus c2
        · exact absurd h hcon.2
        · rfl
      exact hcc ((huniq c1 hc1g ht1).trans (huniq c2 hc2g ht2).symm)
    rcases hone with hz | hz
    · refine evalClause_true_of_mem (List.mem_cons_self _ _) ?_
      rw [evalLit_neg_of_pos (wumpus_var_pos _ _), truthAssign_wum hc1g, hz]
      rfl
    · refine evalClause_true_of_mem (List.mem_cons_of_mem _ (List.mem_cons_self _ _)) ?_
      rw [evalLit_neg_of_pos (wumpus_var_pos _ _), truthAssign_wum hc2g, hz]
      rfl

/-! ### The soundness invariant over reachable states -/

/-- Invariant carried along every reachable agent state: sizes agree, the
solver holds exactly the permanent base, the base is true in the ground
truth, and all visited cells (and the agent) are in-grid and hazard-free. -/
def SoundState (w : WWorld) (s : AgentState) : Prop :=
  s.worldSize = w.size ∧
  s.solverClauses = s.cnf ∧
  evalCnf (truthAssign w) s.cnf = true ∧
  (∀ c ∈ s.visited, inGrid w.size c ∧ hazardFree w c) ∧
  inGrid w.size s.agentPos ∧
  hazardFree w s.agentPos

theorem mem_insertCell {x c : Cell} {l : List Cell} :
    c ∈ insertCell x l ↔ c ∈ l ∨ c = x := by
  unfold insertCell
  split
  · rename_i h
    constructor
    · exact Or.inl
    · rintro (hc | rfl)
      · exact hc
      · exact h
  · simp

theorem sound_init {w : WWorld} (hwf : WFWorld w)
    (hfree : hazardFree w (w.size - 1, 0)) : SoundState w (initAgent w) := by
  have hsz : 0 < w.size := by
    obtain ⟨wc, hwcg, -, -⟩ := hwf
    exact Nat.lt_of_le_of_lt (Nat.zero_le _) hwcg.1
  rw [initAgent_eq]
  refine ⟨rfl, rfl, exactlyOne_truth hwf, ?_, ?_, hfree⟩
  · intro c hc
    exact absurd hc (List.not_mem_nil c)
  · show inGrid w.size (w.size - 1, 0)
    exact ⟨by omega, hsz⟩

theorem sound_update {w : WWorld} {s : AgentState} (h : SoundState w s) :
    SoundState w (update_cnf_for_cell w s s.agentPos) := by
  obtain ⟨hws, hsync, htrue, hvis, hpos, hposf⟩ := h
  have hclauses : evalCnf (truthAssign w) (updateClauses w s.worldSize s.agentPos) = true := by
    rw [hws]
    exact updateClauses_truth hpos
  have hvis' : ∀ c ∈ insertCell s.agentPos s.visited, inGrid w.size c ∧ hazardFree w c := by
    intro c hc
    rcases mem_insertCell.1 hc with hc | rfl
    · exact hvis c hc
    · exact ⟨hpos, hposf⟩
  rw [update_cnf_for_cell_eq]
  split
  · exact ⟨hws, by rw [hsync], by rw [evalCnf_append, htrue, hclauses]; rfl, hvis', hpos, hposf⟩
  · exact ⟨hws, by rw [hsync], by rw [evalCnf_append, htrue, hclauses]; rfl, hvis', hpos, hposf⟩

theorem sound_dedupAdd {w : WWorld} {s : AgentState} (h : SoundState w s) {cl : Clause}
    (hcl : evalClause (truthAssign w) cl = true) : SoundState w (dedupAdd s cl) := by
  obtain ⟨hws, hsync, htrue, hvis, hpos, hposf⟩ := h
  unfold dedupAdd appendCnf appendSolver
  split
  · exact ⟨hws, hsync, htrue, hvis, hpos, hposf⟩
  · refine ⟨hws, by rw [hsync], ?_, hvis, hpos, hposf⟩
    rw [evalCnf_append, htrue]
    simp [evalCnf, hcl]

theorem sound_deducePitStep {w : WWorld} {s : AgentState} {cell : Cell}
    (h : SoundState w s) (hcell : cell ∈ s.visited) :
    SoundState w (deducePitStep w s cell) := by
  have hcellg : inGrid w.size cell := (h.2.2.2.1 cell hcell).1
  simp only [deducePitStep]
  split
  · exact h
  rename_i hb
  have hb' : breezeAt w cell = true := by
    cases hx : breezeAt w cell
    · exact absurd hx hb
    · rfl
  obtain ⟨nbp, hnbp, hpit⟩ := breezeAt_eq_true_iff.1 hb'
  have hnbpg : inGrid w.size nbp := neighbors_inGrid hcellg hnbp
  have hnbp_unvis : nbp ∉ s.visited := by
    intro hmem
    have := (h.2.2.2.1 nbp hmem).2.1
    rw [hpit] at this
    exact Bool.true_eq_false.mp this
  have htruthlit : evalClause (truthAssign w) [pit_var s.worldSize nbp] = true := by
    rw [evalClause_posUnit (pit_var_pos _ _), h.1, truthAssign_pit hnbpg]
    exact hpit
  split
  · rename_i hcond
    -- direct rule: the single unvisited neighbor is the pit holder
    have hnbu : nbp ∈ (get_neighbors w.size cell).filter
        (fun nb => !(decide (nb ∈ s.visited))) := by
      rw [List.mem_filter]
      exact ⟨hnbp, by simp [hnbp_unvis]⟩
    obtain ⟨u, hu⟩ := List.length_eq_one.1 hcond.1
    have hequ : nbp = u := by
      rw [hu] at hnbu
      simpa using hnbu
    have hhead : ((get_neighbors w.size cell).filter
        (fun nb => !(decide (nb ∈ s.visited)))).headI = u := by
      rw [hu]
      rfl
    refine sound_dedupAdd h ?_
    rw [hhead, ← hequ]
    exact htruthlit
  · -- SAT sweep: the pit holder survives the sweep, so a unique survivor
    -- is the pit holder
    split
    · rename_i hlen
      have hmemposs : nbp ∈ (get_neighbors w.size cell).filter
          (fun nb => solve s.solverClauses [pit_var s.worldSize nb]) := by
        rw [List.mem_filter]
        refine ⟨hnbp, ?_⟩
        rw [solve_eq_true_iff]
        have hmodel : evalCnf (truthAssign w) s.solverClauses = true := by
          rw [h.2.1]
          exact h.2.2.1
        have hlit : evalLit (truthAssign w) (pit_var s.worldSize nbp) = true := by
          rw [evalLit_pos (pit_var_pos _ _), h.1, truthAssign_pit hnbpg]
          exact hpit
        simpa using sat_append_unit hmodel hlit
      obtain ⟨u, hu⟩ := List.length_eq_one.1 hlen
      have hequ : nbp = u := by
        rw [hu] at hmemposs
        simpa using hmemposs
      have hhead : ((get_neighbors w.size cell).filter
          (fun nb => solve s.solverClauses [pit_var s.worldSize nb])).headI = u := by
        rw [hu]
        rfl
      refine sound_dedupAdd h ?_
      rw [hhead, ← hequ]
      exact htruthlit
    · exact h

theorem sound_deduceWumpusStep {w : WWorld} {s : AgentState} {cell : Cell}
    (h : SoundState w s) (hcell : cell ∈ s.visited) :
    SoundState w (deduceWumpusStep w s cell) := by
  have hcellg : inGrid w.size cell := (h.2.2.2.1 cell hcell).1
  simp only [deduceWumpusStep]
  split
  · exact h
  rename_i hb
  have hb' : stenchAt w cell = true := by
    cases hx : stenchAt w cell
    · exact absurd hx hb
    · rfl
  obtain ⟨nbp, hnbp, hwum⟩ := stenchAt_eq_true_iff.1 hb'
  have hnbpg : inGrid w.size nbp := neighbors_inGrid hcellg hnbp
  have hnbp_unvis : nbp ∉ s.visited := by
    intro hmem
    have := (h.2.2.2.1 nbp hmem).2.2
    rw [hwum] at this
    exact Bool.true_eq_false.mp this
  have htruthlit : evalClause (truthAssign w) [wumpus_var s.worldSize nbp] = true := by
    rw [evalClause_posUnit (wumpus_var_pos _ _), h.1, truthAssign_wum hnbpg]
    exact hwum
  split
  · rename_i hcond
    have hnbu : nbp ∈ (get_neighbors w.size cell).filter
        (fun nb => !(decide (nb ∈ s.visited))) := by
      rw [List.mem_filter]
      exact ⟨hnbp, by simp [hnbp_unvis]⟩
    obtain ⟨u, hu⟩ := List.length_eq_one.1 hcond.1
    have hequ : nbp = u := by
      rw [hu] at hnbu
      simpa using hnbu
    have hhead : ((get_neighbors w.size cell).filter
        (fun nb => !(decide (nb ∈ s.visited)))).headI = u := by
      rw [hu]
      rfl
    refine sound_dedupAdd h ?_
    rw [hhead, ← hequ]
    exact htruthlit
  · split
    · rename_i hlen
      have hmemposs : nbp ∈ (get_neighbors w.size cell).filter
          (fun nb => solve s.solverClauses [wumpus_var s.worldSize nb]) := by
        rw [List.mem_filter]
        refine ⟨hnbp, ?_⟩
        rw [solve_eq_true_iff]
        have hmodel : evalCnf (truthAssign w) s.solverClauses = true := by
          rw [h.2.1]
          exact h.2.2.1
        have hlit : evalLit (truthAssign w) (wumpus_var s.worldSize nbp) = true := by
          rw [evalLit_pos (wumpus_var_pos _ _), h.1, truthAssign_wum hnbpg]
          exact hwum
        simpa using sat_append_unit hmodel hlit
      obtain ⟨u, hu⟩ := List.length_eq_one.1 hlen
      have hequ : nbp = u := by
        rw [hu] at hmemposs
        simpa using hmemposs
      have hhead : ((get_neighbors w.size cell).filter
          (fun nb => solve s.solverClauses [wumpus_var s.worldSize nb])).headI = u := by
        rw [hu]
        rfl
      refine sound_dedupAdd h ?_
      rw [hhead, ← hequ]
      exact htruthlit
    · exact h

/-- Folding a lock-step-appending, soundness-preserving step over a
sublist of the visited set preserves soundness. -/
theorem sound_fold {w : WWorld} {step : AgentState → Cell → AgentState}
    (hgrowth : ∀ s c, ∃ t : Cnf, step s c =
      { s with cnf := s.cnf ++ t, solverClauses := s.solverClauses ++ t })
    (hsound : ∀ s c, SoundState w s → c ∈ s.visited → SoundState w (step s c)) :
    ∀ (l : List Cell) (s : AgentState), SoundState w s → (∀ c ∈ l, c ∈ s.visited) →
      SoundState w (l.foldl step s) := by
  intro l
  induction l with
  | nil => intro s hs _; exact hs
  | cons c l ih =>
    intro s hs hsub
    rw [List.foldl_cons]
    have hvis_eq : (step s c).visited = s.visited := by
      obtain ⟨t, ht⟩ := hgrowth s c
      rw [ht]
    refine ih (step s c) (hsound s c hs (hsub c (List.mem_cons_self c l))) ?_
    intro c' hc'
    rw [hvis_eq]
    exact hsub c' (List.mem_cons_of_mem _ hc')

theorem sound_deduce_pit {w : WWorld} {s : AgentState} (h : SoundState w s) :
    SoundState w (deduce_pit_from_breeze_constraint w s) :=
  sound_fold (deducePitStep_growth w) (fun _ _ hs hc => sound_deducePitStep hs hc)
    s.visited s h (fun _ hc => hc)

theorem sound_deduce_wumpus {w : WWorld} {s : AgentState} (h : SoundState w s) :
    SoundState w (deduce_wumpus_from_stench_constraint w s) :=
  sound_fold (deduceWumpusStep_growth w) (fun _ _ hs hc => sound_deduceWumpusStep hs hc)
    s.visited s h (fun _ hc => hc)

theorem sound_afterUpdate {w : WWorld} {s : AgentState} (h : SoundState w s) :
    SoundState w (afterUpdate w s) := by
  unfold afterUpdate
  have h3 := sound_deduce_wumpus (sound_deduce_pit (sound_update h))
  exact ⟨h3.1, h3.2.1, h3.2.2.1, h3.2.2.2.1, h3.2.2.2.2.1, h3.2.2.2.2.2⟩

/-- The decision phase only repaints the plan fields: the knowledge base,
visited set, grid size and position of the returned state are those of
the post-update state. -/
theorem chooseFallback_fields (w : WWorld) (s4 : AgentState) (cp : Cell) :
    (chooseFallback w s4 cp).1.worldSize = s4.worldSize ∧
    (chooseFallback w s4 cp).1.visited = s4.visited ∧
    (chooseFallback w s4 cp).1.cnf = s4.cnf ∧
    (chooseFallback w s4 cp).1.solverClauses = s4.solverClauses ∧
    (chooseFallback w s4 cp).1.agentPos = s4.agentPos := by
  simp only [chooseFallback]
  split <;> exact ⟨rfl, rfl, rfl, rfl, rfl⟩

theorem chooseRiskyPhase_fields (w : WWorld) (s4 : AgentState) (cp : Cell) :
    (chooseRiskyPhase w s4 cp).1.worldSize = s4.worldSize ∧
    (chooseRiskyPhase w s4 cp).1.visited = s4.visited ∧
    (chooseRiskyPhase w s4 cp).1.cnf = s4.cnf ∧
    (chooseRiskyPhase w s4 cp).1.solverClauses = s4.solverClauses ∧
    (chooseRiskyPhase w s4 cp).1.agentPos = s4.agentPos := by
  simp only [chooseRiskyPhase]
  split
  · split
    · exact ⟨rfl, rfl, rfl, rfl, rfl⟩
    · exact chooseFallback_fields w s4 cp
  · exact chooseFallback_fields w s4 cp

theorem choose_action_fields (w : WWorld) (s : AgentState) :
    (choose_action w s).1.worldSize = (afterUpdate w s).worldSize ∧
    (choose_action w s).1.visited = (afterUpdate w s).visited ∧
    (choose_action w s).1.cnf = (afterUpdate w s).cnf ∧
    (choose_action w s).1.solverClauses = (afterUpdate w s).solverClauses ∧
    (choose_action w s).1.agentPos = (afterUpdate w s).agentPos := by
  simp only [choose_action]
  split
  · split
    · exact ⟨rfl, rfl, rfl, rfl, rfl⟩
    · exact chooseRiskyPhase_fields w _ _
  · exact chooseRiskyPhase_fields w _ _

theorem applyMove_inGrid {n : Nat} {pos : Cell} {d : Direction}
    (h : inGrid n pos) : inGrid n (applyMove n pos d) := by
  obtain ⟨h1, h2⟩ := h
  cases d <;>
  · simp only [applyMove]
    split
    · rename_i hcond
      exact ⟨by omega, by omega⟩
    · exact ⟨h1, h2⟩

/-- Every reachable state satisfies the soundness invariant. -/
theorem reachable_sound {w : WWorld} (hwf : WFWorld w) {s : AgentState}
    (hr : Reachable w s) : SoundState w s := by
  induction hr with
  | init hfree => exact sound_init hwf hfree
  | step s0 s' d mt hr0 hca hfree ih =>
    have hs4 := sound_afterUpdate ih
    have hfields := choose_action_fields w s0
    rw [hca] at hfields
    obtain ⟨hws, hvis, hcnf, hsol, hpos⟩ := hfields
    refine ⟨?_, ?_, ?_, ?_, ?_, hfree⟩
    · show s'.worldSize = w.size
      rw [hws]
      exact hs4.1
    · show s'.solverClauses = s'.cnf
      rw [hsol, hcnf]
      exact hs4.2.1
    · show evalCnf (truthAssign w) s'.cnf = true
      rw [hcnf]
      exact hs4.2.2.1
    · show ∀ c ∈ s'.visited, inGrid w.size c ∧ hazardFree w c
      rw [hvis]
      exact hs4.2.2.2.1
    · show inGrid w.size (applyMove w.size s'.agentPos d)
      refine applyMove_inGrid ?_
      rw [hpos]
      exact hs4.2.2.2.2.1

/-! ### Soundness of classification (claim C1) -/

theorem soundState_infer_hazards {w : WWorld} {s : AgentState} (hs : SoundState w s)
    {c : Cell} (hc : inGrid w.size c) :
    ((infer_hazards s c).1 = .certain → w.pits c = true) ∧
    ((infer_hazards s c).1 = .absent → w.pits c = false) ∧
    ((infer_hazards s c).2 = .certain → w.wumpus c = true) ∧
    ((infer_hazards s c).2 = .absent → w.wumpus c = false) := by
  have hmodel : evalCnf (truthAssign w) s.solverClauses = true := by
    rw [hs.2.1]
    exact hs.2.2.1
  have hws := hs.1
  refine ⟨?_, ?_, ?_, ?_⟩
  · intro h
    have hst : hazStatus s.solverClauses (pit_var s.worldSize c) = .certain := h
    have := certain_sound (pit_var_pos s.worldSize c) hst hmodel
    rw [hws, truthAssign_pit hc] at this
    exact this
  · intro h
    have hst : hazStatus s.solverClauses (pit_var s.worldSize c) = .absent := h
    have := absent_sound (pit_var_pos s.worldSize c) hst hmodel
    rw [hws, truthAssign_pit hc] at this
    exact this
  · intro h
    have hst : hazStatus s.solverClauses (wumpus_var s.worldSize c) = .certain := h
    have := certain_sound (wumpus_var_pos s.worldSize c) hst hmodel
    rw [hws, truthAssign_wum hc] at this
    exact this
  · intro h
    have hst : hazStatus s.solverClauses (wumpus_var s.worldSize c) = .absent := h
    have := absent_sound (wumpus_var_pos s.worldSize c) hst hmodel
    rw [hws, truthAssign_wum hc] at this
    exact this

/-- C1. Soundness of classification: on every generated world (exactly one
Wumpus) and every agent state reachable by construction plus `choose_action`
turns during which the agent only occupies hazard-free cells, a Certain
verdict of `infer_hazards` implies the hazard is present in the ground
truth, an Absent verdict implies it is absent, and every clause of the
knowledge base — in particular any unit clause asserted by the
pit-by-exclusion rule, which runs only at construction over an empty
visited set and hence asserts nothing — is true in the ground truth. -/
theorem C1_classification_sound {w : WWorld} (hwf : WFWorld w) {s : AgentState}
    (hr : Reachable w s) :
    (∀ c : Cell, inGrid w.size c →
      ((infer_hazards s c).1 = .certain → w.pits c = true) ∧
      ((infer_hazards s c).1 = .absent → w.pits c = false) ∧
      ((infer_hazards s c).2 = .certain → w.wumpus c = true) ∧
      ((infer_hazards s c).2 = .absent → w.wumpus c = false)) ∧
    evalCnf (truthAssign w) s.cnf = true := by
  have hs := reachable_sound hwf hr
  exact ⟨fun c hc => soundState_infer_hazards hs hc, hs.2.2.1⟩

/-- A concrete generated 2×2 world: no pits, the Wumpus at `(1,1)`, gold
at `(0,1)`, agent start `(1,0)`. -/
def W2 : WWorld :=
  { size := 2, pits := fun _ => false,
    wumpus := fun c => decide (c = ((1, 1) : Cell)),
    gold := fun c => decide (c = ((0, 1) : Cell)) }

theorem wfW2 : WFWorld W2 := by
  refine ⟨(1, 1), by decide, by decide, ?_⟩
  intro c _ ht
  exact of_decide_eq_true ht

theorem C1_witness :
    WFWorld W2 ∧ hazardFree W2 (W2.size - 1, 0) ∧
      evalCnf (truthAssign W2) (initAgent W2).cnf = true :=
  ⟨wfW2, by decide,
    (C1_classification_sound wfW2 (Reachable.init (by decide))).2⟩

/-! ### Monotonicity (claim C7) -/

theorem mem_append_unit {f g : Cnf} {x : Clause} (hsub : ∀ cl ∈ f, cl ∈ g) :
    ∀ cl ∈ f ++ [x], cl ∈ g ++ [x] := by
  intro cl hcl
  rcases List.mem_append.1 hcl with h | h
  · exact List.mem_append.2 (Or.inl (hsub cl h))
  · exact List.mem_append.2 (Or.inr h)

/-- One hazard column of `infer_hazards` keeps a decided verdict under
clause additions, as long as the grown base stays satisfiable. -/
theorem hazStatus_mono {f g : Cnf} {v : Int} (hv : 0 < v)
    (hsub : ∀ cl ∈ f, cl ∈ g) (hsat : Satisfiable g)
    (h : hazStatus f v ≠ .unknown) : hazStatus g v = hazStatus f v := by
  rcases hcase : hazStatus f v with hc | hc | hc
  · rw [hazStatus_eq_certain_iff, solve_eq_false_iff] at hcase ⊢
    intro hsatg
    exact hcase (hsatg.mono (by simpa using mem_append_unit hsub))
  · rw [hazStatus_eq_absent_iff] at hcase ⊢
    obtain ⟨hpos, hneg⟩ := hcase
    constructor
    · obtain ⟨a, ha⟩ := hsat
      rw [solve_eq_true_iff]
      rcases hval : a v.natAbs with hb | hb
      · refine sat_append_unit (a := a) ha ?_
        rw [evalLit_neg_of_pos hv, hval]
        rfl
      · exfalso
        rw [solve_eq_false_iff] at hneg
        refine hneg ?_
        have hsg : Satisfiable (g ++ [[v]]) :=
          sat_append_unit ha (by rw [evalLit_pos hv, hval])
        exact hsg.mono (by simpa using mem_append_unit hsub)
    · rw [solve_eq_false_iff] at hneg ⊢
      intro hsatg
      exact hneg (hsatg.mono (by simpa using mem_append_unit hsub))
  · exact absurd hcase h

theorem update_growth (w : WWorld) (s : AgentState) (pos : Cell) :
    (update_cnf_for_cell w s pos).cnf = s.cnf ++ updateClauses w s.worldSize pos ∧
    (update_cnf_for_cell w s pos).solverClauses =
      s.solverClauses ++ updateClauses w s.worldSize pos := by
  rw [update_cnf_for_cell_eq]
  split
  · exact ⟨rfl, rfl⟩
  · exact ⟨rfl, rfl⟩

theorem afterUpdate_growth (w : WWorld) (s : AgentState) :
    ∃ t : Cnf, (afterUpdate w s).cnf = s.cnf ++ t ∧
      (afterUpdate w s).solverClauses = s.solverClauses ++ t := by
  unfold afterUpdate
  obtain ⟨h1c, h1s⟩ := update_growth w s s.agentPos
  obtain ⟨t2, h2⟩ := deduce_pit_growth w (update_cnf_for_cell w s s.agentPos)
  obtain ⟨t3, h3⟩ := deduce_wumpus_growth w
    (deduce_pit_from_breeze_constraint w (update_cnf_for_cell w s s.agentPos))
  refine ⟨updateClauses w s.worldSize s.agentPos ++ t2 ++ t3, ?_, ?_⟩
  · show (deduce_wumpus_from_stench_constraint w _).cnf = _
    rw [h3, h2, h1c]
    simp [List.append_assoc]
  · show (deduce_wumpus_from_stench_constraint w _).solverClauses = _
    rw [h3, h2, h1s]
    simp [List.append_assoc]

/-- C7. Monotonicity of classification: a Certain or Absent verdict of
`infer_hazards` survives any growth of the clause set that keeps the base
satisfiable; and clause addition is the only mutation — each operation of
the agent (and a whole `choose_action` turn) only ever appends to the
knowledge base. -/
theorem C7_monotonicity :
    (∀ (s s' : AgentState) (c : Cell),
      s'.worldSize = s.worldSize →
      (∀ cl ∈ s.solverClauses, cl ∈ s'.solverClauses) →
      Satisfiable s'.solverClauses →
      ((infer_hazards s c).1 ≠ .unknown →
        (infer_hazards s' c).1 = (infer_hazards s c).1) ∧
      ((infer_hazards s c).2 ≠ .unknown →
        (infer_hazards s' c).2 = (infer_hazards s c).2)) ∧
    (∀ (w : WWorld) (s : AgentState) (pos : Cell),
      (∃ t : Cnf, (update_cnf_for_cell w s pos).cnf = s.cnf ++ t) ∧
      (∃ t : Cnf, (deduce_pit_from_breeze_constraint w s).cnf = s.cnf ++ t) ∧
      (∃ t : Cnf, (deduce_wumpus_from_stench_constraint w s).cnf = s.cnf ++ t) ∧
      (∃ t : Cnf, (infer_pit_by_exclusion w s).cnf = s.cnf ++ t) ∧
      (∃ t : Cnf, (add_exactly_one_wumpus_constraint s).cnf = s.cnf ++ t) ∧
      (∃ t : Cnf, ((choose_action w s).1).cnf = s.cnf ++ t)) := by
  constructor
  · intro s s' c hws hsub hsat
    constructor
    · intro h
      show hazStatus s'.solverClauses (pit_var s'.worldSize c) = _
      rw [hws]
      exact hazStatus_mono (pit_var_pos _ _) hsub hsat h
    · intro h
      show hazStatus s'.solverClauses (wumpus_var s'.worldSize c) = _
      rw [hws]
      exact hazStatus_mono (wumpus_var_pos _ _) hsub hsat h
  · intro w s pos
    refine ⟨⟨_, (update_growth w s pos).1⟩, ?_, ?_, ?_, ?_, ?_⟩
    · obtain ⟨t, ht⟩ := deduce_pit_growth w s
      exact ⟨t, by rw [ht]⟩
    · obtain ⟨t, ht⟩ := deduce_wumpus_growth w s
      exact ⟨t, by rw [ht]⟩
    · obtain ⟨t, ht⟩ := infer_pit_by_exclusion_growth w s
      exact ⟨t, by rw [ht]⟩
    · exact ⟨_, by rw [add_exactly_one_eq]⟩
    · obtain ⟨t, ht, -⟩ := afterUpdate_growth w s
      exact ⟨t, by rw [(choose_action_fields w s).2.2.1, ht]⟩

/-- A bare agent state whose knowledge base is the given clause list, on a
2×2 grid with the agent at the start corner. -/
def stateOfCnf (f : Cnf) : AgentState :=
  { worldSize := 2, visited := [], safeMap := [], cnf := f, solverClauses := f,
    hasGold := false, goal := none, start := (0, 0), currentPath := [],
    currentTarget := none, agentPos := (1, 0) }

theorem C7_witness :
    (stateOfCnf [[1], [2]]).worldSize = (stateOfCnf [[1]]).worldSize ∧
    (∀ cl ∈ (stateOfCnf [[1]]).solverClauses, cl ∈ (stateOfCnf [[1], [2]]).solverClauses) ∧
    Satisfiable (stateOfCnf [[1], [2]]).solverClauses ∧
    ((infer_hazards (stateOfCnf [[1]]) (0, 0)).1 ≠ .unknown →
      (infer_hazards (stateOfCnf [[1], [2]]) (0, 0)).1 =
        (infer_hazards (stateOfCnf [[1]]) (0, 0)).1) := by
  have hsat : Satisfiable (stateOfCnf [[1], [2]]).solverClauses :=
    ⟨fun _ => true, by decide⟩
  refine ⟨rfl, by decide, hsat, ?_⟩
  exact ((C7_monotonicity.1 (stateOfCnf [[1]]) (stateOfCnf [[1], [2]]) (0, 0)
    rfl (by decide) hsat).1)

/-! ### Solver/base synchronization (claim C10) -/

/-- C10. After construction and after every knowledge-base-mutating
operation (and a whole `choose_action` turn), the clause list held by the
incremental solver equals the permanent `cnf` list: every append to one is
paired with an add to the other, so assumption queries are answered
against exactly the permanent knowledge base. -/
theorem C10_solver_sync :
    (∀ w : WWorld, (initAgent w).solverClauses = (initAgent w).cnf) ∧
    (∀ (w : WWorld) (s : AgentState) (pos : Cell), s.solverClauses = s.cnf →
      (update_cnf_for_cell w s pos).solverClauses = (update_cnf_for_cell w s pos).cnf ∧
      (deduce_pit_from_breeze_constraint w s).solverClauses =
        (deduce_pit_from_breeze_constraint w s).cnf ∧
      (deduce_wumpus_from_stench_constraint w s).solverClauses =
        (deduce_wumpus_from_stench_constraint w s).cnf ∧
      (infer_pit_by_exclusion w s).solverClauses = (infer_pit_by_exclusion w s).cnf ∧
      (add_exactly_one_wumpus_constraint s).solverClauses =
        (add_exactly_one_wumpus_constraint s).cnf ∧
      ((choose_action w s).1).solverClauses = ((choose_action w s).1).cnf) := by
  constructor
  · intro w
    rw [initAgent_eq]
  · intro w s pos hsync
    obtain ⟨huc, hus⟩ := update_growth w s pos
    obtain ⟨t2, ht2⟩ := deduce_pit_growth w s
    obtain ⟨t3, ht3⟩ := deduce_wumpus_growth w s
    obtain ⟨t4, ht4⟩ := infer_pit_by_exclusion_growth w s
    obtain ⟨t6, ht6c, ht6s⟩ := afterUpdate_growth w s
    refine ⟨by rw [huc, hus, hsync], by rw [ht2, hsync], by rw [ht3, hsync],
      by rw [ht4, hsync], by rw [add_exactly_one_eq, hsync], ?_⟩
    rw [(choose_action_fields w s).2.2.1, (choose_action_fields w s).2.2.2.1,
      ht6c, ht6s, hsync]

theorem C10_witness :
    (stateOfCnf []).solverClauses = (stateOfCnf []).cnf ∧
    (update_cnf_for_cell W2 (stateOfCnf []) (0, 0)).solverClauses =
      (update_cnf_for_cell W2 (stateOfCnf []) (0, 0)).cnf :=
  ⟨rfl, (C10_solver_sync.2 W2 (stateOfCnf []) (0, 0) rfl).1⟩

/-! ### Percept ingestion postcondition (claim C2) -/

theorem update_worldSize (w : WWorld) (s : AgentState) (pos : Cell) :
    (update_cnf_for_cell w s pos).worldSize = s.worldSize := by
  rw [update_cnf_for_cell_eq]
  split <;> rfl

theorem update_visited (w : WWorld) (s : AgentState) (pos : Cell) :
    (update_cnf_for_cell w s pos).visited = insertCell pos s.visited := by
  rw [update_cnf_for_cell_eq]
  split <;> rfl

theorem updateClauses_mem_pit_noBreeze {w : WWorld} {n : Nat} {pos nb : Cell}
    (hb : breezeAt w pos = false) (hnb : nb ∈ get_neighbors w.size pos) :
    [-(pit_var n nb)] ∈ updateClauses w n pos := by
  unfold updateClauses
  refine List.mem_flatMap.2 ⟨nb, hnb, ?_⟩
  unfold updateCellClauses
  rw [if_pos hb]
  exact List.mem_cons_self _ _

theorem updateClauses_mem_pit_breeze {w : WWorld} {n : Nat} {pos : Cell}
    (hb : breezeAt w pos = true) :
    (get_neighbors w.size pos).map (pit_var n) ∈ updateClauses w n pos := by
  obtain ⟨nb, hnb, -⟩ := breezeAt_eq_true_iff.1 hb
  unfold updateClauses
  refine List.mem_flatMap.2 ⟨nb, hnb, ?_⟩
  unfold updateCellClauses
  rw [if_neg (by rw [hb]; exact fun h => Bool.true_eq_false.mp h)]
  exact List.mem_cons_self _ _

theorem updateClauses_mem_wum_noStench {w : WWorld} {n : Nat} {pos nb : Cell}
    (hs : stenchAt w pos = false) (hnb : nb ∈ get_neighbors w.size pos) :
    [-(wumpus_var n nb)] ∈ updateClauses w n pos := by
  unfold updateClauses
  refine List.mem_flatMap.2 ⟨nb, hnb, ?_⟩
  unfold updateCellClauses
  refine List.mem_cons_of_mem _ ?_
  rw [if_pos hs]
  exact List.mem_cons_self _ _

theorem updateClauses_mem_wum_stench {w : WWorld} {n : Nat} {pos : Cell}
    (hs : stenchAt w pos = true) :
    (get_neighbors w.size pos).map (wumpus_var n) ∈ updateClauses w n pos := by
  obtain ⟨nb, hnb, -⟩ := stenchAt_eq_true_iff.1 hs
  unfold updateClauses
  refine List.mem_flatMap.2 ⟨nb, hnb, ?_⟩
  unfold updateCellClauses
  refine List.mem_cons_of_mem _ ?_
  rw [if_neg (by rw [hs]; exact fun h => Bool.true_eq_false.mp h)]
  exact List.mem_cons_self _ _

/-- The model used for the 4×4 scenario: no pits anywhere, the Wumpus
at `(0,0)` (variable 17). -/
def aModScenario : Nat → Bool := fun v => decide (v = 17)

/-- C2. Percept ingestion postcondition: one `update_cnf_for_cell(pos)`
call marks `pos` visited; with no breeze it asserts "no pit" for every
neighbor, with a breeze it asserts the pit disjunction over the actual
neighbor set of `pos` (symmetrically for stench/Wumpus); and in a 4×4
pits-only setting with the agent constructed fresh and updated once at
`(3,0)` under percept `{breeze: false, stench: false}`, both neighbors
`(2,0)` and `(3,1)` are immediately classified pit-Absent (`NoH`). -/
theorem C2_update_postcondition :
    (∀ (w : WWorld) (s : AgentState) (pos : Cell),
      pos ∈ (update_cnf_for_cell w s pos).visited ∧
      (breezeAt w pos = false → ∀ nb ∈ get_neighbors w.size pos,
        [-(pit_var s.worldSize nb)] ∈ (update_cnf_for_cell w s pos).cnf) ∧
      (breezeAt w pos = true →
        (get_neighbors w.size pos).map (pit_var s.worldSize) ∈
          (update_cnf_for_cell w s pos).cnf) ∧
      (stenchAt w pos = false → ∀ nb ∈ get_neighbors w.size pos,
        [-(wumpus_var s.worldSize nb)] ∈ (update_cnf_for_cell w s pos).cnf) ∧
      (stenchAt w pos = true →
        (get_neighbors w.size pos).map (wumpus_var s.worldSize) ∈
          (update_cnf_for_cell w s pos).cnf)) ∧
    (∀ w4 : WWorld, w4.size = 4 →
      breezeAt w4 (3, 0) = false → stenchAt w4 (3, 0) = false →
      (infer_hazards (update_cnf_for_cell w4 (initAgent w4) (3, 0)) (2, 0)).1 = .absent ∧
      (infer_hazards (update_cnf_for_cell w4 (initAgent w4) (3, 0)) (3, 1)).1 = .absent) := by
  constructor
  · intro w s pos
    have hcnf := (update_growth w s pos).1
    refine ⟨?_, ?_, ?_, ?_, ?_⟩
    · rw [update_visited]
      exact mem_insertCell.2 (Or.inr rfl)
    · intro hb nb hnb
      rw [hcnf]
      exact List.mem_append.2 (Or.inr (updateClauses_mem_pit_noBreeze hb hnb))
    · intro hb
      rw [hcnf]
      exact List.mem_append.2 (Or.inr (updateClauses_mem_pit_breeze hb))
    · intro hs nb hnb
      rw [hcnf]
      exact List.mem_append.2 (Or.inr (updateClauses_mem_wum_noStench hs hnb))
    · intro hs
      rw [hcnf]
      exact List.mem_append.2 (Or.inr (updateClauses_mem_wum_stench hs))
  · intro w4 hsz hb hst
    have hnbs : get_neighbors w4.size (3, 0) = [(2, 0), (3, 1)] := by
      rw [hsz]
      rfl
    have hupd : updateClauses w4 4 (3, 0) = [[-9], [-25], [-14], [-30]] := by
      unfold updateClauses updateCellClauses
      rw [hnbs]
      simp only [hb, hst]
      decide
    have hsolver : (update_cnf_for_cell w4 (initAgent w4) (3, 0)).solverClauses =
        exactlyOneClauses 4 ++ [[-9], [-25], [-14], [-30]] := by
      rw [(update_growth w4 (initAgent w4) (3, 0)).2, initAgent_eq]
      show exactlyOneClauses w4.size ++ updateClauses w4 w4.size (3, 0) = _
      rw [hsz, hupd]
    have hws : (update_cnf_for_cell w4 (initAgent w4) (3, 0)).worldSize = 4 := by
      rw [update_worldSize, initAgent_eq, hsz]
    constructor
    · show hazStatus _ (pit_var _ (2, 0)) = .absent
      rw [hsolver, hws]
      rw [hazStatus_eq_absent_iff]
      constructor
      · rw [solve_eq_true_iff]
        exact ⟨aModScenario, by decide⟩
      · rw [solve_eq_false_iff]
        refine unsat_pos_of_negUnit (by decide) ?_
        decide
    · show hazStatus _ (pit_var _ (3, 1)) = .absent
      rw [hsolver, hws]
      rw [hazStatus_eq_absent_iff]
      constructor
      · rw [solve_eq_true_iff]
        exact ⟨aModScenario, by decide⟩
      · rw [solve_eq_false_iff]
        refine unsat_pos_of_negUnit (by decide) ?_
        decide

/-- A pits-only 4×4 world with no hazards at all. -/
def W4 : WWorld :=
  { size := 4, pits := fun _ => false, wumpus := fun _ => false, gold := fun _ => false }

theorem C2_witness :
    W4.size = 4 ∧ breezeAt W4 (3, 0) = false ∧ stenchAt W4 (3, 0) = false ∧
    (infer_hazards (update_cnf_for_cell W4 (initAgent W4) (3, 0)) (2, 0)).1 = .absent :=
  ⟨rfl, by decide, by decide,
    (C2_update_postcondition.2 W4 rfl (by decide) (by decide)).1⟩

/-! ### Idempotence of percept re-ingestion (claim C8) -/

theorem insertCell_of_mem {x : Cell} {l : List Cell} (h : x ∈ l) :
    insertCell x l = l := by
  unfold insertCell
  rw [if_pos h]

theorem mem_append_right_subset {f g m : Cnf} (h : ∀ cl ∈ f, cl ∈ g) :
    ∀ cl ∈ f ++ m, cl ∈ g ++ m := by
  intro cl hcl
  rcases List.mem_append.1 hcl with hc | hc
  · exact List.mem_append.2 (Or.inl (h cl hc))
  · exact List.mem_append.2 (Or.inr hc)

theorem solve_eq_of_mutual {f g : Cnf} (h1 : ∀ cl ∈ f, cl ∈ g)
    (h2 : ∀ cl ∈ g, cl ∈ f) (asms : List Int) : solve f asms = solve g asms := by
  have hiff : Satisfiable (f ++ asms.map (fun l => [l])) ↔
      Satisfiable (g ++ asms.map (fun l => [l])) :=
    ⟨fun hs => hs.mono (mem_append_right_subset h2),
     fun hs => hs.mono (mem_append_right_subset h1)⟩
  cases hf : solve f asms <;> cases hg : solve g asms
  · rfl
  · exfalso
    rw [solve_eq_false_iff] at hf
    rw [solve_eq_true_iff] at hg
    exact hf (hiff.2 hg)
  · exfalso
    rw [solve_eq_true_iff] at hf
    rw [solve_eq_false_iff] at hg
    exact hg (hiff.1 hf)
  · rfl

theorem hazStatus_congr {f g : Cnf} (h1 : ∀ cl ∈ f, cl ∈ g)
    (h2 : ∀ cl ∈ g, cl ∈ f) (v : Int) : hazStatus f v = hazStatus g v := by
  unfold hazStatus
  rw [solve_eq_of_mutual h1 h2 [-v], solve_eq_of_mutual h1 h2 [v]]

theorem update_hasGold_goal (w : WWorld) (s : AgentState) (pos : Cell) :
    ((update_cnf_for_cell w s pos).hasGold =
        (if glitterAt w pos then true else s.hasGold)) ∧
    ((update_cnf_for_cell w s pos).goal =
        (if glitterAt w pos then some s.start else s.goal)) ∧
    (update_cnf_for_cell w s pos).start = s.start := by
  rw [update_cnf_for_cell_eq]
  by_cases hg : glitterAt w pos <;> simp [hg]

theorem update_solver (w : WWorld) (s : AgentState) (pos : Cell) :
    (update_cnf_for_cell w s pos).solverClauses =
      s.solverClauses ++ updateClauses w s.worldSize pos :=
  (update_growth w s pos).2

/-- C8. Idempotence: re-running `update_cnf_for_cell` on the same cell
with the (necessarily identical) percept leaves the visited set, the gold
flag and the goal unchanged, adds only clauses that are already present,
and changes no cell's `infer_hazards` classification or `is_cell_safe`
verdict. -/
theorem C8_idempotent (w : WWorld) (s : AgentState) (pos : Cell) :
    (update_cnf_for_cell w (update_cnf_for_cell w s pos) pos).visited =
      (update_cnf_for_cell w s pos).visited ∧
    (update_cnf_for_cell w (update_cnf_for_cell w s pos) pos).hasGold =
      (update_cnf_for_cell w s pos).hasGold ∧
    (update_cnf_for_cell w (update_cnf_for_cell w s pos) pos).goal =
      (update_cnf_for_cell w s pos).goal ∧
    (∀ cl ∈ (update_cnf_for_cell w (update_cnf_for_cell w s pos) pos).cnf,
      cl ∈ (update_cnf_for_cell w s pos).cnf) ∧
    (∀ c : Cell,
      infer_hazards (update_cnf_for_cell w (update_cnf_for_cell w s pos) pos) c =
        infer_hazards (update_cnf_for_cell w s pos) c ∧
      is_cell_safe (update_cnf_for_cell w (update_cnf_for_cell w s pos) pos) c =
        is_cell_safe (update_cnf_for_cell w s pos) c) := by
  set s1 := update_cnf_for_cell w s pos with hs1
  set s2 := update_cnf_for_cell w s1 pos with hs2
  have hws1 : s1.worldSize = s.worldSize := update_worldSize w s pos
  have hws2 : s2.worldSize = s1.worldSize := update_worldSize w s1 pos
  have hcnf1 : s1.cnf = s.cnf ++ updateClauses w s.worldSize pos := (update_growth w s pos).1
  have hcnf2 : s2.cnf = s1.cnf ++ updateClauses w s.worldSize pos := by
    rw [hs2, (update_growth w s1 pos).1, hws1]
  have hsol1 : s1.solverClauses = s.solverClauses ++ updateClauses w s.worldSize pos :=
    update_solver w s pos
  have hsol2 : s2.solverClauses = s1.solverClauses ++ updateClauses w s.worldSize pos := by
    rw [hs2, update_solver w s1 pos, hws1]
  have hsubC : ∀ cl ∈ s2.cnf, cl ∈ s1.cnf := by
    intro cl hcl
    rw [hcnf2] at hcl
    rcases List.mem_append.1 hcl with hc | hc
    · exact hc
    · rw [hcnf1]
      exact List.mem_append.2 (Or.inr hc)
  have hsubS : ∀ cl ∈ s2.solverClauses, cl ∈ s1.solverClauses := by
    intro cl hcl
    rw [hsol2] at hcl
    rcases List.mem_append.1 hcl with hc | hc
    · exact hc
    · rw [hsol1]
      exact List.mem_append.2 (Or.inr hc)
  have hsupS : ∀ cl ∈ s1.solverClauses, cl ∈ s2.solverClauses := by
    intro cl hcl
    rw [hsol2]
    exact List.mem_append.2 (Or.inl hcl)
  refine ⟨?_, ?_, ?_, hsubC, ?_⟩
  · rw [hs2, update_visited, update_visited]
    exact insertCell_of_mem (mem_insertCell.2 (Or.inr rfl))
  · obtain ⟨hg2, -, -⟩ := update_hasGold_goal w s1 pos
    obtain ⟨hg1, -, -⟩ := update_hasGold_goal w s pos
    rw [hg2, hg1]
    by_cases hg : glitterAt w pos
    · rw [if_pos hg, if_pos hg]
    · rw [if_neg hg, if_neg hg]
  · obtain ⟨-, hgoal2, hstart2⟩ := update_hasGold_goal w s1 pos
    obtain ⟨-, hgoal1, hstart1⟩ := update_hasGold_goal w s pos
    rw [hgoal2, hgoal1]
    by_cases hg : glitterAt w pos
    · rw [if_pos hg, if_pos hg]
      exact congrArg some hstart1
    · rw [if_neg hg, if_neg hg]
  · intro c
    constructor
    · show (hazStatus s2.solverClauses (pit_var s2.worldSize c),
        hazStatus s2.solverClauses (wumpus_var s2.worldSize c)) = _
      rw [hws2, hazStatus_congr hsubS hsupS, hazStatus_congr hsubS hsupS]
      rfl
    · show (!(solve s2.solverClauses [pit_var s2.worldSize c]) &&
        !(solve s2.solverClauses [wumpus_var s2.worldSize c])) = _
      rw [hws2, solve_eq_of_mutual hsubS hsupS, solve_eq_of_mutual hsubS hsupS]
      rfl

/-! ### BFS machinery: the predecessor map -/

theorem lookupA_append (came came' : List (Cell × Option Cell)) (c : Cell) :
    lookupA (came ++ came') c =
      match lookupA came c with
      | some v => some v
      | none => lookupA came' c := by
  induction came with
  | nil => rfl
  | cons e rest ih =>
    obtain ⟨k, v⟩ := e
    show lookupA ((k, v) :: (rest ++ came')) c = _
    by_cases hk : k = c
    · simp [lookupA, hk]
    · simp only [lookupA, if_neg hk]
      exact ih

theorem lookupA_append_of_isSome {came : List (Cell × Option Cell)} {c : Cell}
    (h : (lookupA came c).isSome) (came' : List (Cell × Option Cell)) :
    lookupA (came ++ came') c = lookupA came c := by
  rw [lookupA_append]
  cases hl : lookupA came c
  · rw [hl] at h
    exact absurd h (by simp)
  · rfl

theorem lookupA_update (came : List (Cell × Option Cell)) (k : Cell) (v : Option Cell)
    (c : Cell) : lookupA (updateA came k v) c =
      if k = c then some v else lookupA came c := by
  induction came with
  | nil =>
    show lookupA [(k, v)] c = _
    rfl
  | cons e rest ih =>
    obtain ⟨k', v'⟩ := e
    show lookupA (if k' = k then (k, v) :: rest else (k', v') :: updateA rest k v) c = _
    by_cases hkk : k' = k
    · rw [if_pos hkk]
      show (if k = c then some v else lookupA rest c) = _
      by_cases hkc : k = c
      · rw [if_pos hkc, if_pos hkc]
      · rw [if_neg hkc, if_neg hkc]
        show _ = lookupA ((k', v') :: rest) c
        rw [hkk]
        show lookupA rest c = if k = c then some v' else lookupA rest c
        rw [if_neg hkc]
    · rw [if_neg hkk]
      show (if k' = c then some v' else lookupA (updateA rest k v) c) = _
      by_cases hkc' : k' = c
      · rw [if_pos hkc', if_neg (fun h => hkk (hkc'.trans h.symm))]
        show _ = lookupA ((k', v') :: rest) c
        show some v' = if k' = c then some v' else lookupA rest c
        rw [if_pos hkc']
      · rw [if_neg hkc', ih]
        by_cases hkc : k = c
        · rw [if_pos hkc, if_pos hkc]
        · rw [if_neg hkc, if_neg hkc]
          show _ = lookupA ((k', v') :: rest) c
          show lookupA rest c = if k' = c then some v' else lookupA rest c
          rw [if_neg hkc']

/-- Invariant of a BFS `came_from` map: the start is its own root entry,
only the start has a root entry, and every other entry records a grid
edge from its predecessor, a cell satisfying the enqueue condition `P`,
and a predecessor that itself has an entry. -/
def GoodCame (adj : Cell → Cell → Prop) (P : Cell → Prop) (start : Cell)
    (came : List (Cell × Option Cell)) : Prop :=
  lookupA came start = some none ∧
  (∀ c : Cell, lookupA came c = some none → c = start) ∧
  (∀ c pr : Cell, lookupA came c = some (some pr) →
    adj pr c ∧ P c ∧ (lookupA came pr).isSome)

theorem goodCame_init (adj : Cell → Cell → Prop) (P : Cell → Prop) (start : Cell) :
    GoodCame adj P start [(start, none)] := by
  refine ⟨?_, ?_, ?_⟩
  · show (if start = start then some none else none) = some none
    rw [if_pos rfl]
  · intro c hc
    by_cases h : start = c
    · exact h.symm
    · exact absurd hc (by show (if start = c then _ else none) ≠ _; rw [if_neg h]; simp)
  · intro c pr hc
    by_cases h : start = c
    · rw [show lookupA [(start, none)] c = some none from by
        show (if start = c then some none else none) = _; rw [if_pos h]] at hc
      exact absurd hc (by simp)
    · exact absurd hc (by show (if start = c then _ else none) ≠ _; rw [if_neg h]; simp)

/-- Appending a fresh child entry preserves the invariant. -/
theorem goodCame_append {adj P start came} (hg : GoodCame adj P start came)
    {nb cur : Cell} (hnew : lookupA came nb = none) (hadj : adj cur nb) (hP : P nb)
    (hcur : (lookupA came cur).isSome) :
    GoodCame adj P start (came ++ [(nb, some cur)]) := by
  obtain ⟨hstart, hroot, hedge⟩ := hg
  have hlook : ∀ c : Cell, lookupA (came ++ [(nb, some cur)]) c =
      match lookupA came c with
      | some v => some v
      | none => if nb = c then some (some cur) else none := by
    intro c
    rw [lookupA_append]
    rfl
  refine ⟨?_, ?_, ?_⟩
  · rw [hlook, hstart]
  · intro c hc
    rw [hlook c] at hc
    cases hl : lookupA came c with
    | some v =>
      rw [hl] at hc
      exact hroot c (by rw [hl]; exact hc)
    | none =>
      rw [hl] at hc
      by_cases hnbc : nb = c
      · rw [if_pos hnbc] at hc
        exact absurd hc (by simp)
      · rw [if_neg hnbc] at hc
        exact absurd hc (by simp)
  · intro c pr hc
    rw [hlook c] at hc
    cases hl : lookupA came c with
    | some v =>
      rw [hl] at hc
      have hv : v = some pr := Option.some.inj hc
      obtain ⟨h1, h2, h3⟩ := hedge c pr (by rw [hl, hv])
      refine ⟨h1, h2, ?_⟩
      rw [hlook pr]
      cases hpl : lookupA came pr
      · rw [hpl] at h3
        exact absurd h3 (by simp)
      · simp
    | none =>
      rw [hl] at hc
      by_cases hnbc : nb = c
      · rw [if_pos hnbc] at hc
        have hpr : cur = pr := Option.some.inj (Option.some.inj hc)
        refine ⟨?_, ?_, ?_⟩
        · rw [← hpr, ← hnbc]
          exact hadj
        · rw [← hnbc]
          exact hP
        · rw [← hpr, hlook cur]
          cases hpl : lookupA came cur with
          | none =>
            rw [hpl] at hcur
            exact absurd hcur (by simp)
          | some vv => simp
      · rw [if_neg hnbc] at hc
        exact absurd hc (by simp)

/-- Overwriting or inserting a child entry whose key is not the start
preserves the invariant. -/
theorem goodCame_update {adj P start came} (hg : GoodCame adj P start came)
    {nb cur : Cell} (hnb : nb ≠ start) (hadj : adj cur nb) (hP : P nb)
    (hcur : (lookupA came cur).isSome) :
    GoodCame adj P start (updateA came nb (some cur)) := by
  obtain ⟨hstart, hroot, hedge⟩ := hg
  refine ⟨?_, ?_, ?_⟩
  · rw [lookupA_update, if_neg hnb]
    exact hstart
  · intro c hc
    rw [lookupA_update] at hc
    by_cases hnbc : nb = c
    · rw [if_pos hnbc] at hc
      exact absurd hc (by simp)
    · rw [if_neg hnbc] at hc
      exact hroot c hc
  · intro c pr hc
    rw [lookupA_update] at hc
    by_cases hnbc : nb = c
    · rw [if_pos hnbc] at hc
      have hpr : cur = pr := Option.some.inj (Option.some.inj hc)
      refine ⟨?_, ?_, ?_⟩
      · rw [← hpr, ← hnbc]
        exact hadj
      · rw [← hnbc]
        exact hP
      · rw [← hpr, lookupA_update]
        by_cases hpp : nb = cur
        · rw [if_pos hpp]
          simp
        · rw [if_neg hpp]
          exact hcur
    · rw [if_neg hnbc] at hc
      obtain ⟨h1, h2, h3⟩ := hedge c pr hc
      refine ⟨h1, h2, ?_⟩
      rw [lookupA_update]
      by_cases hpp : nb = pr
      · rw [if_pos hpp]
        simp
      · rw [if_neg hpp]
        exact h3

/-- What a successful path reconstruction yields: a chain of `came_from`
edges from the start to the reconstruction root, every non-start element
satisfying the enqueue condition. -/
theorem reconstructPath_spec {adj : Cell → Cell → Prop} {P : Cell → Prop}
    {start : Cell} {came : List (Cell × Option Cell)}
    (hg : GoodCame adj P start came) :
    ∀ (fuel : Nat) (cur : Cell) (acc p : List Cell),
      reconstructPath came fuel cur acc = some p →
      ∃ q : List Cell, p = q ++ acc ∧ q ≠ [] ∧ q.head? = some start ∧
        q.getLast? = some cur ∧ List.Chain' adj q ∧
        (∀ x ∈ q, x ≠ start → P x) := by
  intro fuel
  induction fuel with
  | zero =>
    intro cur acc p h
    exact absurd h (by simp [reconstructPath])
  | succ fuel ih =>
    intro cur acc p h
    cases hl : lookupA came cur with
    | none =>
      simp only [reconstructPath, hl] at h
      exact Option.noConfusion h
    | some pr =>
      cases pr with
      | none =>
        simp only [reconstructPath, hl] at h
        have hp : cur :: acc = p := Option.some.inj h
        have hcur : cur = start := hg.2.1 cur hl
        refine ⟨[cur], by rw [← hp]; rfl, by simp, by rw [hcur]; rfl, rfl,
          List.chain'_singleton cur, ?_⟩
        intro x hx hne
        rw [List.mem_singleton] at hx
        exact absurd (hx.trans hcur) hne
      | some pr =>
        simp only [reconstructPath, hl] at h
        obtain ⟨hadj, hP, -⟩ := hg.2.2 cur pr hl
        obtain ⟨q', hq'eq, hq'ne, hq'h, hq'l, hq'c, hq'P⟩ := ih pr (cur :: acc) p h
        refine ⟨q' ++ [cur], ?_, by simp, ?_, ?_, ?_, ?_⟩
        · rw [hq'eq, List.append_assoc]
          rfl
        · cases q' with
          | nil => exact absurd rfl hq'ne
          | cons a q'' => exact hq'h
        · rw [List.getLast?_concat]
        · rw [List.chain'_append]
          refine ⟨hq'c, List.chain'_singleton cur, ?_⟩
          intro x hx y hy
          rw [hq'l] at hx
          have hx' : pr = x := Option.mem_some_iff.1 hx
          have hy' : cur = y := Option.mem_some_iff.1 hy
          rw [← hx', ← hy']
          exact hadj
        · intro x hx hne
          rcases List.mem_append.1 hx with hx | hx
          · exact hq'P x hx hne
          · rw [List.mem_singleton] at hx
            rw [hx]
            exact hP

/-! ### Sorting lemmas (Python `sorted` is a permutation) -/

theorem mem_insertByKey {α : Type} (key : α → Nat) (x y : α) :
    ∀ l : List α, y ∈ insertByKey key x l ↔ y = x ∨ y ∈ l := by
  intro l
  induction l with
  | nil => simp [insertByKey]
  | cons z zs ih =>
    simp only [insertByKey]
    split
    · rw [List.mem_cons]
    · rw [List.mem_cons, ih, List.mem_cons]
      tauto

theorem mem_sortByKey {α : Type} (key : α → Nat) (y : α) :
    ∀ l : List α, y ∈ sortByKey key l ↔ y ∈ l := by
  intro l
  induction l with
  | nil => simp [sortByKey]
  | cons z zs ih =>
    simp only [sortByKey]
    rw [mem_insertByKey, ih, List.mem_cons]

/-! ### The two BFS loops -/

/-- Enqueue condition of `find_safe_path`: visited or provably safe. -/
def SafeP (s : AgentState) (c : Cell) : Prop :=
  c ∈ s.visited ∨ is_cell_safe s c = true

/-- Enqueue condition of `find_safe_path_to_risky` for non-target cells,
plus the target exemption. -/
def RiskyP (s : AgentState) (target c : Cell) : Prop :=
  c = target ∨ ((infer_hazards s c).1 = .absent ∧ (infer_hazards s c).2 = .absent ∧
    is_cell_safe s c = true)

theorem safeExpand_spec (w : WWorld) (s : AgentState) (start : Cell) :
    ∀ (nbs : List Cell) (cur : Cell) (came : List (Cell × Option Cell)) (queue : List Cell),
      GoodCame (fun a b => b ∈ get_neighbors w.size a) (SafeP s) start came →
      (∀ nb ∈ nbs, nb ∈ get_neighbors w.size cur) →
      (lookupA came cur).isSome →
      (∀ c ∈ queue, (lookupA came c).isSome) →
      GoodCame (fun a b => b ∈ get_neighbors w.size a) (SafeP s) start
        (safeExpand w s cur nbs came queue).1 ∧
      (∀ c ∈ (safeExpand w s cur nbs came queue).2,
        (lookupA (safeExpand w s cur nbs came queue).1 c).isSome) := by
  intro nbs
  induction nbs with
  | nil =>
    intro cur came queue hg _ _ hq
    exact ⟨hg, hq⟩
  | cons nb rest ih =>
    intro cur came queue hg hn hc hq
    have hnrest : ∀ x ∈ rest, x ∈ get_neighbors w.size cur :=
      fun x hx => hn x (List.mem_cons_of_mem _ hx)
    simp only [safeExpand]
    split
    · exact ih cur came queue hg hnrest hc hq
    split
    · exact ih cur came queue hg hnrest hc hq
    split
    · rename_i hlook _ hcond
      have hnone : lookupA came nb = none := by
        cases hx : lookupA came nb
        · rfl
        · rw [hx] at hlook
          exact absurd rfl hlook
      have hP : SafeP s nb := by
        rcases (Bool.or_eq_true _ _).mp hcond with hx | hx
        · exact Or.inr hx
        · exact Or.inl (of_decide_eq_true hx)
      have hg' := goodCame_append hg hnone (hn nb (List.mem_cons_self nb rest)) hP hc
      refine ih cur (came ++ [(nb, some cur)]) (queue ++ [nb]) hg' hnrest ?_ ?_
      · rw [lookupA_append_of_isSome hc]
        exact hc
      · intro c hcq
        rcases List.mem_append.1 hcq with hcq | hcq
        · rw [lookupA_append_of_isSome (hq c hcq)]
          exact hq c hcq
        · rw [List.mem_singleton] at hcq
          subst hcq
          rw [lookupA_append, hnone]
          show (if c = c then some (some cur) else none).isSome = true
          rw [if_pos rfl]
          rfl
    · exact ih cur came queue hg hnrest hc hq

theorem riskyExpand_spec (w : WWorld) (s : AgentState) (start target : Cell)
    (hts : target ≠ start) :
    ∀ (nbs : List Cell) (cur : Cell) (came : List (Cell × Option Cell)) (queue : List Cell),
      GoodCame (fun a b => b ∈ get_neighbors w.size a) (RiskyP s target) start came →
      (∀ nb ∈ nbs, nb ∈ get_neighbors w.size cur) →
      (lookupA came cur).isSome →
      (∀ c ∈ queue, (lookupA came c).isSome) →
      GoodCame (fun a b => b ∈ get_neighbors w.size a) (RiskyP s target) start
        (riskyExpand w s cur target nbs came queue).1 ∧
      (∀ c ∈ (riskyExpand w s cur target nbs came queue).2,
        (lookupA (riskyExpand w s cur target nbs came queue).1 c).isSome) := by
  intro nbs
  induction nbs with
  | nil =>
    intro cur came queue hg _ _ hq
    exact ⟨hg, hq⟩
  | cons nb rest ih =>
    intro cur came queue hg hn hc hq
    have hnrest : ∀ x ∈ rest, x ∈ get_neighbors w.size cur :=
      fun x hx => hn x (List.mem_cons_of_mem _ hx)
    simp only [riskyExpand]
    split
    · exact ih cur came queue hg hnrest hc hq
    split
    · exact ih cur came queue hg hnrest hc hq
    split
    · rename_i hlook hskip hcond
      have hnbstart : nb ≠ start := by
        by_cases hnt : nb = target
        · rw [hnt]
          exact hts
        · intro heq
          refine hlook ⟨hnt, ?_⟩
          rw [heq, hg.1]
          rfl
      have hP : RiskyP s target nb := by
        by_cases hnt : nb = target
        · exact Or.inl hnt
        · refine Or.inr ⟨?_, ?_, ?_⟩
          · by_contra hbad
            exact hskip ⟨hnt, Or.inl hbad⟩
          · by_contra hbad
            exact hskip ⟨hnt, Or.inr hbad⟩
          · rcases (Bool.or_eq_true _ _).mp hcond with hx | hx
            · exact hx
            · exact absurd (of_decide_eq_true hx) hnt
      have hg' := goodCame_update hg hnbstart (hn nb (List.mem_cons_self nb rest)) hP hc
      refine ih cur (updateA came nb (some cur)) (queue ++ [nb]) hg' hnrest ?_ ?_
      · rw [lookupA_update]
        by_cases hpp : nb = cur
        · rw [if_pos hpp]
          rfl
        · rw [if_neg hpp]
          exact hc
      · intro c hcq
        rw [lookupA_update]
        by_cases hpp : nb = c
        · rw [if_pos hpp]
          rfl
        · rw [if_neg hpp]
          rcases List.mem_append.1 hcq with hcq | hcq
          · exact hq c hcq
          · rw [List.mem_singleton] at hcq
            exact absurd hcq.symm hpp
    · exact ih cur came queue hg hnrest hc hq

theorem bfsSafe_spec (w : WWorld) (s : AgentState) (target start : Cell) :
    ∀ (fuel : Nat) (queue : List Cell) (came : List (Cell × Option Cell)) (p : List Cell),
      GoodCame (fun a b => b ∈ get_neighbors w.size a) (SafeP s) start came →
      (∀ c ∈ queue, (lookupA came c).isSome) →
      bfsSafe w s target fuel queue came = some p →
      p ≠ [] ∧ p.head? = some start ∧ p.getLast? = some target ∧
      List.Chain' (fun a b => b ∈ get_neighbors w.size a) p ∧
      (∀ x ∈ p, x ≠ start → SafeP s x) := by
  intro fuel
  induction fuel with
  | zero =>
    intro queue came p _ _ h
    exact Option.noConfusion h
  | succ fuel ih =>
    intro queue came p hg hq h
    cases queue with
    | nil => exact Option.noConfusion h
    | cons cur rest =>
      by_cases hcur : cur = target
      · simp only [bfsSafe, if_pos hcur] at h
        obtain ⟨q, hqeq, hqne, hqh, hql, hqc, hqP⟩ :=
          reconstructPath_spec hg _ cur [] p h
        rw [List.append_nil] at hqeq
        subst hqeq
        exact ⟨hqne, hqh, by rw [hql, hcur], hqc, hqP⟩
      · simp only [bfsSafe, if_neg hcur] at h
        have hnmem : ∀ nb ∈ sortByKey (fun nb => manhattan nb target)
            (get_neighbors w.size cur), nb ∈ get_neighbors w.size cur :=
          fun nb hnb => (mem_sortByKey _ nb _).1 hnb
        obtain ⟨hg', hq'⟩ := safeExpand_spec w s start _ cur came rest hg hnmem
          (hq cur (List.mem_cons_self cur rest))
          (fun c hc => hq c (List.mem_cons_of_mem _ hc))
        exact ih _ _ p hg' hq' h

theorem bfsRisky_spec (w : WWorld) (s : AgentState) (target start : Cell)
    (hts : target ≠ start) :
    ∀ (fuel : Nat) (queue : List Cell) (came : List (Cell × Option Cell)) (p : List Cell),
      GoodCame (fun a b => b ∈ get_neighbors w.size a) (RiskyP s target) start came →
      (∀ c ∈ queue, (lookupA came c).isSome) →
      bfsRisky w s target fuel queue came = some p →
      p ≠ [] ∧ p.head? = some start ∧ p.getLast? = some target ∧
      List.Chain' (fun a b => b ∈ get_neighbors w.size a) p ∧
      (∀ x ∈ p, x ≠ start → RiskyP s target x) := by
  intro fuel
  induction fuel with
  | zero =>
    intro queue came p _ _ h
    exact Option.noConfusion h
  | succ fuel ih =>
    intro queue came p hg hq h
    cases queue with
    | nil => exact Option.noConfusion h
    | cons cur rest =>
      by_cases hcur : cur = target
      · simp only [bfsRisky, if_pos hcur] at h
        obtain ⟨q, hqeq, hqne, hqh, hql, hqc, hqP⟩ :=
          reconstructPath_spec hg _ cur [] p h
        rw [List.append_nil] at hqeq
        subst hqeq
        exact ⟨hqne, hqh, by rw [hql, hcur], hqc, hqP⟩
      · simp only [bfsRisky, if_neg hcur] at h
        have hnmem : ∀ nb ∈ sortByKey (fun nb => manhattan nb target)
            (get_neighbors w.size cur), nb ∈ get_neighbors w.size cur :=
          fun nb hnb => (mem_sortByKey _ nb _).1 hnb
        obtain ⟨hg', hq'⟩ := riskyExpand_spec w s start target hts _ cur came rest hg hnmem
          (hq cur (List.mem_cons_self cur rest))
          (fun c hc => hq c (List.mem_cons_of_mem _ hc))
        exact ih _ _ p hg' hq' h

theorem lookupA_init_isSome (start : Cell) :
    (lookupA [(start, none)] start).isSome := by
  show (if start = start then some none else none).isSome = true
  rw [if_pos rfl]
  rfl

/-- Specification of returned `find_safe_path` paths: nonempty, from
start to target along grid edges, every non-start cell visited or
provably safe. -/
theorem find_safe_path_spec {w : WWorld} {s : AgentState} {start target : Cell}
    {p : List Cell} (h : find_safe_path w s start target = some p) :
    p ≠ [] ∧ p.head? = some start ∧ p.getLast? = some target ∧
    List.Chain' (fun a b => b ∈ get_neighbors w.size a) p ∧
    (∀ x ∈ p, x ≠ start → (x ∈ s.visited ∨ is_cell_safe s x = true)) :=
  bfsSafe_spec w s target start (pathFuel w) [start] [(start, none)] p
    (goodCame_init _ _ _)
    (fun c hc => by
      rw [List.mem_singleton] at hc
      subst hc
      exact lookupA_init_isSome c) h

/-- Specification of returned `find_safe_path_to_risky` paths: nonempty,
from start to target along grid edges, every cell other than the start
and the target classified Absent/Absent and provably safe. -/
theorem find_safe_path_to_risky_spec {w : WWorld} {s : AgentState} {start target : Cell}
    {p : List Cell} (h : find_safe_path_to_risky w s start target = some p) :
    p ≠ [] ∧ p.head? = some start ∧ p.getLast? = some target ∧
    List.Chain' (fun a b => b ∈ get_neighbors w.size a) p ∧
    (∀ x ∈ p, x ≠ start → x ≠ target →
      ((infer_hazards s x).1 = .absent ∧ (infer_hazards s x).2 = .absent ∧
        is_cell_safe s x = true)) := by
  by_cases hts : target = start
  · subst hts
    obtain ⟨k, hk⟩ : ∃ k, pathFuel w = k + 1 :=
      ⟨pathFuel w - 1, by unfold pathFuel; omega⟩
    unfold find_safe_path_to_risky at h
    rw [hk] at h
    simp only [bfsRisky, if_pos rfl] at h
    have hrec : reconstructPath [(target, none)] ([(target, (none : Option Cell))].length + 1)
        target [] = some [target] := by
      show reconstructPath [(target, none)] 2 target [] = some [target]
      simp only [reconstructPath]
      rw [show lookupA [(target, none)] target = some none from by
        show (if target = target then some none else none) = _
        rw [if_pos rfl]]
    rw [hrec] at h
    have hp : p = [target] := (Option.some.inj h).symm
    subst hp
    refine ⟨by simp, rfl, rfl, List.chain'_singleton target, ?_⟩
    intro x hx hxs _
    rw [List.mem_singleton] at hx
    exact absurd hx hxs
  · have hspec := bfsRisky_spec w s target start hts (pathFuel w) [start] [(start, none)] p
      (goodCame_init _ _ _)
      (fun c hc => by
        rw [List.mem_singleton] at hc
        subst hc
        exact lookupA_init_isSome c) h
    obtain ⟨h1, h2, h3, h4, h5⟩ := hspec
    refine ⟨h1, h2, h3, h4, ?_⟩
    intro x hx hxs hxt
    rcases h5 x hx hxs with hc | hc
    · exact absurd hc hxt
    · exact hc

/-! ### Path validity (claim C4) and the risky-target variant (claim C3) -/

/-- A 3×3 world with no hazards. -/
def W3 : WWorld :=
  { size := 3, pits := fun _ => false, wumpus := fun _ => false, gold := fun _ => false }

/-- C4 counterexample. The claim requires every cell of a returned path,
start included, to be visited or provably safe; yet with an unvisited,
not-provably-safe start the one-cell path `[start]` is returned
(`find_safe_path` never checks the start cell). -/
theorem C4_counterexample :
    find_safe_path W2 (stateOfCnf []) (0, 0) (0, 0) = some [(0, 0)] ∧
    ((0, 0) : Cell) ∉ (stateOfCnf []).visited ∧
    is_cell_safe (stateOfCnf []) (0, 0) = false := by
  refine ⟨by decide, by decide, by decide⟩

/-- C4 (amended). Path validity: every path returned by `find_safe_path`
runs from start to target along grid-adjacent cells, and every cell on it
other than the start — the target included — is, at path-construction
time, in the visited set or provably safe (`is_cell_safe`). The start
cell itself is exempt: it is seeded into the search unconditionally. -/
theorem C4_path_validity {w : WWorld} {s : AgentState} {start target : Cell}
    {p : List Cell} (h : find_safe_path w s start target = some p) :
    p.head? = some start ∧ p.getLast? = some target ∧
    List.Chain' (fun a b => b ∈ get_neighbors w.size a) p ∧
    (∀ x ∈ p, x ≠ start → (x ∈ s.visited ∨ is_cell_safe s x = true)) := by
  obtain ⟨-, h2, h3, h4, h5⟩ := find_safe_path_spec h
  exact ⟨h2, h3, h4, h5⟩

/-- A 2×2 state with `(0,0)` and `(0,1)` visited and an empty clause base. -/
def stateV : AgentState := { stateOfCnf [] with visited := [(0, 0), (0, 1)] }

theorem C4_witness :
    find_safe_path W2 stateV (0, 0) (0, 1) = some [(0, 0), (0, 1)] ∧
    ([(0, 0), (0, 1)] : List Cell).getLast? = some (0, 1) := by
  have h : find_safe_path W2 stateV (0, 0) (0, 1) = some [(0, 0), (0, 1)] := by decide
  exact ⟨h, (C4_path_validity h).2.1⟩

/-- The 3×3 state showing that a visited but not provably safe
intermediate cell is traversable by `find_safe_path` but not by
`find_safe_path_to_risky`. -/
def stateC3 : AgentState :=
  { stateOfCnf [] with worldSize := 3, visited := [(0, 0), (0, 1), (0, 2)] }

/-- C3 counterexample. `find_safe_path_to_risky` is *not* `find_safe_path`
with only the target exempted: its intermediate condition drops the
visited disjunct. Here `find_safe_path` reaches `(0,2)` through the
visited cell `(0,1)`, while `find_safe_path_to_risky` on the same state
finds no path at all. -/
theorem C3_counterexample :
    find_safe_path W3 stateC3 (0, 0) (0, 2) = some [(0, 0), (0, 1), (0, 2)] ∧
    find_safe_path_to_risky W3 stateC3 (0, 0) (0, 2) = none := by
  refine ⟨by decide, by decide⟩

/-- C3 (amended). `find_safe_path_to_risky` exempts exactly the target
from the safety requirement: on a returned path the target may appear
(as last cell) without being visited or provably safe, and every other
cell except the start must be classified Absent for both hazards and be
provably safe — unlike in `find_safe_path`, merely being visited does
not qualify an intermediate cell. -/
theorem C3_risky_exemption {w : WWorld} {s : AgentState} {start target : Cell}
    {p : List Cell} (h : find_safe_path_to_risky w s start target = some p) :
    p.head? = some start ∧ p.getLast? = some target ∧
    List.Chain' (fun a b => b ∈ get_neighbors w.size a) p ∧
    (∀ x ∈ p, x ≠ start → x ≠ target →
      ((infer_hazards s x).1 = .absent ∧ (infer_hazards s x).2 = .absent ∧
        is_cell_safe s x = true)) := by
  obtain ⟨-, h2, h3, h4, h5⟩ := find_safe_path_to_risky_spec h
  exact ⟨h2, h3, h4, h5⟩

theorem C3_witness :
    find_safe_path_to_risky W2 stateV (0, 0) (0, 1) = some [(0, 0), (0, 1)] ∧
    ([(0, 0), (0, 1)] : List Cell).getLast? = some (0, 1) := by
  have h : find_safe_path_to_risky W2 stateV (0, 0) (0, 1) = some [(0, 0), (0, 1)] := by
    decide
  exact ⟨h, (C3_risky_exemption h).2.1⟩

/-! ### Closest-safe-target selection (claim C5) -/

theorem insertByKey_sorted {α : Type} (key : α → Nat) (x : α) :
    ∀ {l : List α}, List.Sorted (fun a b => key a ≤ key b) l →
      List.Sorted (fun a b => key a ≤ key b) (insertByKey key x l) := by
  intro l
  induction l with
  | nil =>
    intro _
    simp [insertByKey]
  | cons z zs ih =>
    intro h
    rw [List.sorted_cons] at h
    obtain ⟨hz, hzs⟩ := h
    simp only [insertByKey]
    split
    · rename_i hle
      rw [List.sorted_cons]
      refine ⟨?_, List.sorted_cons.2 ⟨hz, hzs⟩⟩
      intro b hb
      rcases List.mem_cons.1 hb with rfl | hb
      · exact hle
      · exact Nat.le_trans hle (hz b hb)
    · rename_i hgt
      rw [List.sorted_cons]
      refine ⟨?_, ih hzs⟩
      intro b hb
      rcases (mem_insertByKey key x b zs).1 hb with rfl | hb
      · omega
      · exact hz b hb

theorem sortByKey_sorted {α : Type} (key : α → Nat) :
    ∀ l : List α, List.Sorted (fun a b => key a ≤ key b) (sortByKey key l) := by
  intro l
  induction l with
  | nil => simp [sortByKey]
  | cons z zs ih =>
    simp only [sortByKey]
    exact insertByKey_sorted key z ih

theorem firstCandidate_none_iff (w : WWorld) (s : AgentState) (cur : Cell) :
    ∀ l : List Cell, firstCandidate w s cur l = none ↔
      ∀ c ∈ l, find_safe_path w s cur c = none := by
  intro l
  induction l with
  | nil => simp [firstCandidate]
  | cons cand rest ih =>
    cases hp : find_safe_path w s cur cand with
    | some p =>
      simp only [firstCandidate, hp]
      constructor
      · intro h
        exact Option.noConfusion h
      · intro h
        rw [h cand (List.mem_cons_self cand rest)] at hp
        exact Option.noConfusion hp
    | none =>
      simp only [firstCandidate, hp]
      constructor
      · intro h c hc
        rcases List.mem_cons.1 hc with rfl | hc
        · exact hp
        · exact (ih.1 h) c hc
      · intro h
        exact ih.2 (fun c hc => h c (List.mem_cons_of_mem _ hc))

theorem firstCandidate_some (w : WWorld) (s : AgentState) (cur : Cell) :
    ∀ (l : List Cell) (cand : Cell) (p : List Cell),
      firstCandidate w s cur l = some (cand, p) →
      cand ∈ l ∧ find_safe_path w s cur cand = some p ∧
      ∃ pre post, l = pre ++ cand :: post ∧
        ∀ c ∈ pre, find_safe_path w s cur c = none := by
  intro l
  induction l with
  | nil =>
    intro cand p h
    exact Option.noConfusion h
  | cons c0 rest ih =>
    intro cand p h
    cases hp : find_safe_path w s cur c0 with
    | some p0 =>
      simp only [firstCandidate, hp] at h
      have hcp : c0 = cand ∧ p0 = p := by
        have := Option.some.inj h
        exact ⟨congrArg Prod.fst this, congrArg Prod.snd this⟩
      obtain ⟨rfl, rfl⟩ := hcp
      refine ⟨List.mem_cons_self _ _, hp, [], rest, rfl, ?_⟩
      intro c hc
      exact absurd hc (List.not_mem_nil c)
    | none =>
      simp only [firstCandidate, hp] at h
      obtain ⟨hmem, hpath, pre, post, heq, hpre⟩ := ih cand p h
      refine ⟨List.mem_cons_of_mem _ hmem, hpath, c0 :: pre, post, by rw [heq]; rfl, ?_⟩
      intro c hc
      rcases List.mem_cons.1 hc with rfl | hc
      · exact hp
      · exact hpre c hc

/-- C5 counterexample. When the start cell itself lies in the safe
frontier, it is sorted first (distance 0), trivially yields the
self-loop path `[start]`, the loop breaks, and `(None, None)` is
returned even though another frontier cell is reachable — contradicting
both the "first candidate with a path of length > 1" description and
the "(None, None) exactly when no candidate is reachable" condition. -/
theorem C5_counterexample :
    find_closest_safe_path W2
      { stateOfCnf [] with visited := [(0, 0), (0, 1)], safeMap := [(0, 0), (0, 1)] }
      (0, 0) = (none, none) ∧
    find_safe_path W2
      { stateOfCnf [] with visited := [(0, 0), (0, 1)], safeMap := [(0, 0), (0, 1)] }
      (0, 0) (0, 1) = some [(0, 0), (0, 1)] := by
  refine ⟨by decide, by decide⟩

/-- C5 (amended). Provided the start cell is not itself in the safe
frontier (as holds in every `choose_action` call, where the frontier
excludes visited cells): `find_closest_safe_path` scans the frontier in
ascending Manhattan-distance order, returns `(none, none)` exactly when
`find_safe_path` reaches no frontier cell, and otherwise returns the
first reachable candidate of the scan together with its path, which has
length > 1. -/
theorem C5_closest_safe (w : WWorld) (s : AgentState) (start : Cell)
    (hns : start ∉ s.safeMap) :
    List.Sorted (fun a b => manhattan a start ≤ manhattan b start)
      (sortByKey (fun nb => manhattan nb start) s.safeMap) ∧
    (find_closest_safe_path w s start = (none, none) ↔
      ∀ c ∈ s.safeMap, find_safe_path w s start c = none) ∧
    (∀ (cand : Cell) (p : List Cell),
      find_closest_safe_path w s start = (some cand, some p) →
      cand ∈ s.safeMap ∧ find_safe_path w s start cand = some p ∧ 1 < p.length ∧
      ∃ pre post, sortByKey (fun nb => manhattan nb start) s.safeMap =
          pre ++ cand :: post ∧
        ∀ c ∈ pre, find_safe_path w s start c = none) := by
  refine ⟨sortByKey_sorted _ _, ?_, ?_⟩
  · constructor
    · intro h c hc
      simp only [find_closest_safe_path] at h
      cases hfc : firstCandidate w s start (sortByKey (fun nb => manhattan nb start) s.safeMap) with
      | none =>
        exact (firstCandidate_none_iff w s start _).1 hfc c ((mem_sortByKey _ c _).2 hc)
      | some cp =>
        obtain ⟨cand, p⟩ := cp
        simp only [hfc] at h
        obtain ⟨hmem, -, -⟩ := firstCandidate_some w s start _ cand p hfc
        have hcand : cand ≠ start := fun he => hns (he ▸ (mem_sortByKey _ cand _).1 hmem)
        rw [if_neg hcand] at h
        exact Prod.noConfusion h (fun h1 _ => Option.noConfusion h1)
    · intro h
      simp only [find_closest_safe_path]
      cases hfc : firstCandidate w s start (sortByKey (fun nb => manhattan nb start) s.safeMap) with
      | none =>
        simp only [hfc]
      | some cp =>
        obtain ⟨cand, p⟩ := cp
        obtain ⟨hmem, hpath, -⟩ := firstCandidate_some w s start _ cand p hfc
        rw [h cand ((mem_sortByKey _ cand _).1 hmem)] at hpath
        exact Option.noConfusion hpath
  · intro cand p h
    simp only [find_closest_safe_path] at h
    cases hfc : firstCandidate w s start (sortByKey (fun nb => manhattan nb start) s.safeMap) with
    | none =>
      simp only [hfc] at h
      exact Option.noConfusion (congrArg Prod.fst h)
    | some cp =>
      obtain ⟨cand', p'⟩ := cp
      simp only [hfc] at h
      obtain ⟨hmem, hpath, pre, post, heq, hpre⟩ := firstCandidate_some w s start _ cand' p' hfc
      have hcand' : cand' ≠ start := fun he => hns (he ▸ (mem_sortByKey _ cand' _).1 hmem)
      rw [if_neg hcand'] at h
      have hc1 : cand' = cand := Option.some.inj (congrArg Prod.fst h)
      have hp1 : p' = p := Option.some.inj (congrArg Prod.snd h)
      have hlen : 1 < p'.length := by
        obtain ⟨hne, hhead, hlast, -, -⟩ := find_safe_path_spec hpath
        cases p' with
        | nil => exact absurd rfl hne
        | cons a rest =>
          cases rest with
          | nil =>
            have ha1 : a = start := Option.some.inj hhead
            have ha2 : a = cand' := by
              have hx : ([a] : List Cell).getLast? = some a := rfl
              rw [hx] at hlast
              exact Option.some.inj hlast
            exact absurd (ha2.symm.trans ha1) hcand'
          | cons b rest' =>
            show 1 < rest'.length + 1 + 1
            omega
      rw [← hc1, ← hp1]
      exact ⟨(mem_sortByKey _ cand' _).1 hmem, hpath, hlen, pre, post, heq, hpre⟩

theorem C5_witness :
    (((0, 0) : Cell) ∉ (stateOfCnf []).safeMap) ∧
    (find_closest_safe_path W2 (stateOfCnf []) (0, 0) = (none, none) ↔
      ∀ c ∈ (stateOfCnf []).safeMap, find_safe_path W2 (stateOfCnf []) (0, 0) c = none) :=
  ⟨by decide, (C5_closest_safe W2 (stateOfCnf []) (0, 0) (by decide)).2.1⟩

/-! ### Risk-score ordering (claim C6) -/

theorem manhattan_le {n : Nat} {a b : Cell} (ha : inGrid n a) (hb : inGrid n b) :
    manhattan a b ≤ 2 * (n - 1) := by
  obtain ⟨h1, h2⟩ := ha
  obtain ⟨h3, h4⟩ := hb
  unfold manhattan
  omega

theorem not_both_unsat {f : Cnf} {v : Int} (hv : 0 < v) (hsat : Satisfiable f) :
    ¬(solve f [v] = false ∧ solve f [-v] = false) := by
  rintro ⟨hpos, hneg⟩
  obtain ⟨a, ha⟩ := hsat
  rw [solve_eq_false_iff] at hpos hneg
  cases hval : a v.natAbs
  · refine hneg ?_
    have hlit : evalLit a (-v) = true := by
      rw [evalLit_neg_of_pos hv, hval]
      rfl
    simpa using sat_append_unit ha hlit
  · refine hpos ?_
    have hlit : evalLit a v = true := by
      rw [evalLit_pos hv, hval]
    simpa using sat_append_unit ha hlit

theorem absent_of_sat_unsat {f : Cnf} {v : Int} (hv : 0 < v) (hsat : Satisfiable f)
    (hunsat : solve f [v] = false) : hazStatus f v = .absent := by
  rw [hazStatus_eq_absent_iff]
  refine ⟨?_, hunsat⟩
  cases hneg : solve f [-v]
  · exact absurd ⟨hunsat, hneg⟩ (not_both_unsat hv hsat)
  · rfl

/-- Under a satisfiable base, a provably safe cell is classified
Absent/Absent. -/
theorem safe_absent {s : AgentState} (hsat : Satisfiable s.solverClauses) {x : Cell}
    (hx : is_cell_safe s x = true) :
    (infer_hazards s x).1 = .absent ∧ (infer_hazards s x).2 = .absent := by
  unfold is_cell_safe at hx
  rw [Bool.and_eq_true] at hx
  obtain ⟨hp, hw⟩ := hx
  rw [Bool.not_eq_true'] at hp hw
  exact ⟨absent_of_sat_unsat (pit_var_pos _ _) hsat hp,
    absent_of_sat_unsat (wumpus_var_pos _ _) hsat hw⟩

/-- Under a satisfiable base, a Certain cell is not provably safe. -/
theorem certain_not_safe {s : AgentState} (hsat : Satisfiable s.solverClauses) {x : Cell}
    (h : (infer_hazards s x).1 = .certain ∨ (infer_hazards s x).2 = .certain) :
    is_cell_safe s x = false := by
  cases hs : is_cell_safe s x
  · rfl
  · exfalso
    unfold is_cell_safe at hs
    rw [Bool.and_eq_true] at hs
    obtain ⟨hp, hw⟩ := hs
    rw [Bool.not_eq_true'] at hp hw
    rcases h with h | h
    · have h' : hazStatus s.solverClauses (pit_var s.worldSize x) = .certain := h
      rw [hazStatus_eq_certain_iff] at h'
      exact not_both_unsat (pit_var_pos s.worldSize x) hsat ⟨hp, h'⟩
    · have h' : hazStatus s.solverClauses (wumpus_var s.worldSize x) = .certain := h
      rw [hazStatus_eq_certain_iff] at h'
      exact not_both_unsat (wumpus_var_pos s.worldSize x) hsat ⟨hw, h'⟩

theorem risk_estimate_eq (w : WWorld) (s : AgentState) (x : Cell) :
    risk_estimate w s x =
      (if (infer_hazards s x).1 = .certain then (1000 : ℚ)
        else if (infer_hazards s x).1 = .absent then -50 else 0) +
      (if (infer_hazards s x).2 = .certain then (1000 : ℚ)
        else if (infer_hazards s x).2 = .absent then -50 else 0) +
      (manhattan x s.agentPos : ℚ) / ((s.worldSize : ℚ) * 2) / 100 +
      (if x ∈ s.visited then (2 : ℚ)
        else if is_cell_safe s x = true then -5000 else -25) := rfl

theorem statusTerm_ge (st : Status) :
    (-50 : ℚ) ≤ (if st = .certain then (1000 : ℚ) else if st = .absent then -50 else 0) := by
  cases st <;> decide

theorem statusTerm_le_of_ne (st : Status) (h : st ≠ .certain) :
    (if st = .certain then (1000 : ℚ) else if st = .absent then -50 else 0) ≤ 0 := by
  cases st <;> first | (exact absurd rfl h) | decide

theorem statusTerm_certain (st : Status) (h : st = .certain) :
    (if st = .certain then (1000 : ℚ) else if st = .absent then -50 else 0) = 1000 := by
  rw [if_pos h]

theorem distTerm_nonneg (s : AgentState) (x : Cell) :
    0 ≤ (manhattan x s.agentPos : ℚ) / ((s.worldSize : ℚ) * 2) / 100 := by
  positivity

theorem distTerm_lt (s : AgentState) (x : Cell) (hn : 1 ≤ s.worldSize)
    (hx : inGrid s.worldSize x) (hag : inGrid s.worldSize s.agentPos) :
    (manhattan x s.agentPos : ℚ) / ((s.worldSize : ℚ) * 2) / 100 < 1 / 100 := by
  have hman : manhattan x s.agentPos ≤ 2 * (s.worldSize - 1) := manhattan_le hx hag
  have h2n : (0 : ℚ) < (s.worldSize : ℚ) * 2 := by
    have : (0 : ℚ) < (s.worldSize : ℚ) := by exact_mod_cast hn
    linarith
  have hlt : (manhattan x s.agentPos : ℚ) < (s.worldSize : ℚ) * 2 := by
    have hnat : manhattan x s.agentPos < s.worldSize * 2 := by omega
    calc (manhattan x s.agentPos : ℚ) < ((s.worldSize * 2 : Nat) : ℚ) := by
          exact_mod_cast hnat
      _ = (s.worldSize : ℚ) * 2 := by push_cast; ring
  have hfrac : (manhattan x s.agentPos : ℚ) / ((s.worldSize : ℚ) * 2) < 1 :=
    (div_lt_one h2n).2 hlt
  rw [div_lt_div_iff_of_pos_right (by norm_num : (0 : ℚ) < 100)]
  exact hfrac

/-- C6 counterexample. The claimed strict ordering
`risk(unresolved) < risk(visited)` fails: a visited cell whose two
hazards are classified Absent scores `-50 - 50 + 2 = -98`, strictly
below any unresolved unvisited cell (at least `-75`). Concretely, with
base `[[-1], [-5]]` on a 2×2 grid, the visited Absent/Absent cell
`(0,0)` scores below the unresolved unvisited cell `(0,1)`. -/
def stateC6cex : AgentState :=
  { stateOfCnf [[-1], [-5]] with visited := [(0, 0)], agentPos := (0, 0) }

theorem C6_counterexample :
    (((0, 1) : Cell) ∉ stateC6cex.visited) ∧
    is_cell_safe stateC6cex (0, 1) = false ∧
    (infer_hazards stateC6cex (0, 1)).1 ≠ .certain ∧
    (infer_hazards stateC6cex (0, 1)).2 ≠ .certain ∧
    (((0, 0) : Cell) ∈ stateC6cex.visited) ∧
    risk_estimate W2 stateC6cex (0, 0) < risk_estimate W2 stateC6cex (0, 1) := by
  have hv1 : risk_estimate W2 stateC6cex (0, 0) = -98 := by
    have hp : (infer_hazards stateC6cex (0, 0)).1 = .absent := by decide
    have hw : (infer_hazards stateC6cex (0, 0)).2 = .absent := by decide
    rw [risk_estimate_eq, hp, hw, if_pos (by decide : ((0, 0) : Cell) ∈ stateC6cex.visited)]
    rw [if_neg (by decide : ¬(Status.absent = Status.certain)), if_pos rfl]
    norm_num [stateC6cex, stateOfCnf, manhattan]
  have hv2 : risk_estimate W2 stateC6cex (0, 1) = -25 + 1 / 400 := by
    have hp : (infer_hazards stateC6cex (0, 1)).1 = .unknown := by decide
    have hw : (infer_hazards stateC6cex (0, 1)).2 = .unknown := by decide
    have hnv : ((0, 1) : Cell) ∉ stateC6cex.visited := by decide
    have hns : ¬(is_cell_safe stateC6cex (0, 1) = true) := by decide
    rw [risk_estimate_eq, hp, hw, if_neg hnv, if_neg hns]
    rw [if_neg (by decide : ¬(Status.unknown = Status.certain)),
      if_neg (by decide : ¬(Status.unknown = Status.absent))]
    norm_num [stateC6cex, stateOfCnf, manhattan]
  refine ⟨by decide, by decide, by decide, by decide, by decide, ?_⟩
  rw [hv1, hv2]
  norm_num

/-- C6 (amended). Under a satisfiable clause base and in-grid cells,
`risk_estimate` places a provably-safe unvisited cell strictly below
unresolved, visited and certain-hazard cells, and places a cell with a
Certain verdict strictly above unresolved and (non-Certain) visited
cells; the Manhattan tie-break term is non-negative and below `1/100`,
so it never reorders across these classes. The unresolved-vs-visited
comparison of the original claim is dropped (see the counterexample);
the visited class is restricted to non-Certain cells, without which
`visited < certain` also fails. -/
theorem C6_risk_ordering (w : WWorld) (s : AgentState) (a b c d : Cell)
    (hsat : Satisfiable s.solverClauses)
    (hn : 1 ≤ s.worldSize)
    (hag : inGrid s.worldSize s.agentPos)
    (hga : inGrid s.worldSize a)
    (hgb : inGrid s.worldSize b) (hgc : inGrid s.worldSize c)
    (hA : a ∉ s.visited ∧ is_cell_safe s a = true)
    (hB : b ∉ s.visited ∧ is_cell_safe s b = false ∧
      (infer_hazards s b).1 ≠ .certain ∧ (infer_hazards s b).2 ≠ .certain)
    (hC : c ∈ s.visited ∧
      (infer_hazards s c).1 ≠ .certain ∧ (infer_hazards s c).2 ≠ .certain)
    (hD : (infer_hazards s d).1 = .certain ∨ (infer_hazards s d).2 = .certain) :
    (risk_estimate w s a < risk_estimate w s b ∧
     risk_estimate w s a < risk_estimate w s c ∧
     risk_estimate w s b < risk_estimate w s d ∧
     risk_estimate w s c < risk_estimate w s d) ∧
    (∀ x : Cell, inGrid s.worldSize x →
      0 ≤ (manhattan x s.agentPos : ℚ) / ((s.worldSize : ℚ) * 2) / 100 ∧
      (manhattan x s.agentPos : ℚ) / ((s.worldSize : ℚ) * 2) / 100 < 1 / 100) := by
  obtain ⟨hAnv, hAsafe⟩ := hA
  obtain ⟨hBnv, hBnsafe, hBc1, hBc2⟩ := hB
  obtain ⟨hCv, hCc1, hCc2⟩ := hC
  obtain ⟨hPa, hWa⟩ := safe_absent hsat hAsafe
  -- risk of the safe cell a
  have hra : risk_estimate w s a =
      -5100 + (manhattan a s.agentPos : ℚ) / ((s.worldSize : ℚ) * 2) / 100 := by
    rw [risk_estimate_eq, hPa, hWa, if_neg hAnv, if_pos hAsafe]
    push_cast
    ring_nf
    norm_num
  have hda := distTerm_nonneg s a
  have hda1 := distTerm_lt s a hn hga hag
  -- bounds for the unresolved cell b
  have hrb : risk_estimate w s b =
      (if (infer_hazards s b).1 = .certain then (1000 : ℚ)
        else if (infer_hazards s b).1 = .absent then -50 else 0) +
      (if (infer_hazards s b).2 = .certain then (1000 : ℚ)
        else if (infer_hazards s b).2 = .absent then -50 else 0) +
      (manhattan b s.agentPos : ℚ) / ((s.worldSize : ℚ) * 2) / 100 + -25 := by
    have hnsb : ¬(is_cell_safe s b = true) := by
      rw [hBnsafe]
      exact fun h => Bool.false_ne_true h
    rw [risk_estimate_eq, if_neg hBnv, if_neg hnsb]
  have hb1l := statusTerm_ge (infer_hazards s b).1
  have hb2l := statusTerm_ge (infer_hazards s b).2
  have hb1u := statusTerm_le_of_ne _ hBc1
  have hb2u := statusTerm_le_of_ne _ hBc2
  have hdb0 := distTerm_nonneg s b
  have hdb1 := distTerm_lt s b hn hgb hag
  -- bounds for the visited cell c
  have hrc : risk_estimate w s c =
      (if (infer_hazards s c).1 = .certain then (1000 : ℚ)
        else if (infer_hazards s c).1 = .absent then -50 else 0) +
      (if (infer_hazards s c).2 = .certain then (1000 : ℚ)
        else if (infer_hazards s c).2 = .absent then -50 else 0) +
      (manhattan c s.agentPos : ℚ) / ((s.worldSize : ℚ) * 2) / 100 + 2 := by
    rw [risk_estimate_eq, if_pos hCv]
  have hc1l := statusTerm_ge (infer_hazards s c).1
  have hc2l := statusTerm_ge (infer_hazards s c).2
  have hc1u := statusTerm_le_of_ne _ hCc1
  have hc2u := statusTerm_le_of_ne _ hCc2
  have hdc0 := distTerm_nonneg s c
  have hdc1 := distTerm_lt s c hn hgc hag
  -- lower bound for the certain cell d
  have hDnsafe : is_cell_safe s d = false := certain_not_safe hsat hD
  have hrd4 : (-25 : ℚ) ≤ (if d ∈ s.visited then (2 : ℚ)
      else if is_cell_safe s d = true then -5000 else -25) := by
    by_cases hdv : d ∈ s.visited
    · rw [if_pos hdv]
      norm_num
    · have hnsd : ¬(is_cell_safe s d = true) := by
        rw [hDnsafe]
        exact fun h => Bool.false_ne_true h
      rw [if_neg hdv, if_neg hnsd]
  have hrdst : (950 : ℚ) ≤
      (if (infer_hazards s d).1 = .certain then (1000 : ℚ)
        else if (infer_hazards s d).1 = .absent then -50 else 0) +
      (if (infer_hazards s d).2 = .certain then (1000 : ℚ)
        else if (infer_hazards s d).2 = .absent then -50 else 0) := by
    rcases hD with hD | hD
    · have h1 := statusTerm_certain _ hD
      have h2 := statusTerm_ge (infer_hazards s d).2
      linarith
    · have h1 := statusTerm_certain _ hD
      have h2 := statusTerm_ge (infer_hazards s d).1
      linarith
  have hdd0 := distTerm_nonneg s d
  have hrd : (925 : ℚ) ≤ risk_estimate w s d := by
    rw [risk_estimate_eq]
    linarith
  refine ⟨⟨?_, ?_, ?_, ?_⟩, ?_⟩
  · rw [hra, hrb]
    linarith
  · rw [hra, hrc]
    linarith
  · rw [hrb]
    linarith
  · rw [hrc]
    linarith
  · intro x hx
    exact ⟨distTerm_nonneg s x, distTerm_lt s x hn hx hag⟩

/-- The 2×2 state exhibiting all four risk classes at once: `(0,0)` safe
via units `[-1], [-5]`, `(0,1)` unresolved, `(1,0)` visited, `(1,1)` a
certain pit via the unit `[4]`. -/
def stateC6 : AgentState :=
  { stateOfCnf [[-1], [-5], [4]] with visited := [(1, 0)] }

theorem C6_witness :
    Satisfiable stateC6.solverClauses ∧
    (risk_estimate W2 stateC6 (0, 0) < risk_estimate W2 stateC6 (0, 1) ∧
     risk_estimate W2 stateC6 (0, 0) < risk_estimate W2 stateC6 (1, 0) ∧
     risk_estimate W2 stateC6 (0, 1) < risk_estimate W2 stateC6 (1, 1) ∧
     risk_estimate W2 stateC6 (1, 0) < risk_estimate W2 stateC6 (1, 1)) := by
  have hsat : Satisfiable stateC6.solverClauses :=
    ⟨fun v => decide (v = 4), by decide⟩
  refine ⟨hsat, (C6_risk_ordering W2 stateC6 (0, 0) (0, 1) (1, 0) (1, 1) hsat
    (by decide) (by decide) (by decide) (by decide) (by decide)
    ⟨by decide, by decide⟩ ⟨by decide, by decide, by decide, by decide⟩
    ⟨by decide, by decide, by decide⟩ (Or.inl (by decide))).1⟩

/-! ### Totality of `choose_action` (claim C9) -/

theorem minByDist_ne_none {cur : Cell} {l : List Cell} (h : l ≠ []) :
    minByDist cur l ≠ none := by
  cases l with
  | nil => exact absurd rfl h
  | cons x xs =>
    simp [minByDist]

theorem chooseFallback_mt (w : WWorld) (s4 : AgentState) (cp : Cell)
    (hnb : get_neighbors w.size cp ≠ []) :
    (chooseFallback w s4 cp).2.2 ≠ .ultimateRandom := by
  simp only [chooseFallback]
  cases hm : minByDist cp (get_neighbors w.size cp) with
  | none => exact absurd hm (minByDist_ne_none hnb)
  | some best =>
    intro hcon
    exact MoveType.noConfusion hcon

theorem chooseRiskyPhase_mt (w : WWorld) (s4 : AgentState) (cp : Cell)
    (hnb : get_neighbors w.size cp ≠ []) :
    (chooseRiskyPhase w s4 cp).2.2 ≠ .ultimateRandom := by
  simp only [chooseRiskyPhase]
  split
  · split
    · intro hcon
      exact MoveType.noConfusion hcon
    · exact chooseFallback_mt w s4 cp hnb
  · exact chooseFallback_mt w s4 cp hnb

/-- C9. Totality of `choose_action`: on any state whose current cell has
at least one grid neighbor (any grid of size ≥ 2), `choose_action`
terminates with one of the four directions and never takes the
ultimate-random branch — a planner returning the no-path signal at any
priority level only causes fallthrough, and the adjacent-neighbor
fallback always succeeds. -/
theorem C9_choose_action_total (w : WWorld) (s : AgentState)
    (hnb : get_neighbors w.size s.agentPos ≠ []) :
    (choose_action w s).2.2 ≠ .ultimateRandom ∧
    ((choose_action w s).2.1 = .up ∨ (choose_action w s).2.1 = .down ∨
     (choose_action w s).2.1 = .left ∨ (choose_action w s).2.1 = .right) := by
  constructor
  · simp only [choose_action]
    split
    · split
      · intro hcon
        exact MoveType.noConfusion hcon
      · exact chooseRiskyPhase_mt w _ _ hnb
    · exact chooseRiskyPhase_mt w _ _ hnb
  · cases (choose_action w s).2.1 with
    | up => exact Or.inl rfl
    | down => exact Or.inr (Or.inl rfl)
    | left => exact Or.inr (Or.inr (Or.inl rfl))
    | right => exact Or.inr (Or.inr (Or.inr rfl))

theorem C9_witness :
    get_neighbors W2.size (stateOfCnf []).agentPos ≠ [] ∧
    (choose_action W2 (stateOfCnf [])).2.2 ≠ .ultimateRandom :=
  ⟨by decide, (C9_choose_action_total W2 (stateOfCnf []) (by decide)).1⟩
